import Mathlib

/-!
Verification of the grid-search core of the `Class5` warehouse repository:
`src/ucs_pathfinder.py` (`uniformcost_search`) and `src/astar_pathfinder.py`
(`astar_search`).  The two Python modules are shallowly embedded below; all
arithmetic that the searches perform on costs is exact integer arithmetic
(every move costs `1` and the Manhattan heuristic is integer valued), so
costs are modelled as `Nat` and positions as `Int × Int`.

The `heapq` frontier of the source pushes tuples `(cost, id(node), node)`.
Since the `id` components of simultaneously live entries are distinct
integers, tuple comparison never reaches the node component and the heap
behaves extensionally as pop-the-minimum under the lexicographic order on
`(cost, id)`.  It is therefore embedded as a list kept sorted by that key
(`heapPush` inserts in order, popping takes the head).  The source of
run-to-run variation in the Python code — the concrete values handed out by
`id()` — is made explicit as a parameter `ids : Nat → Nat` mapping the
creation index of each node (0 for the start node, then in creation order)
to the integer used as its tie-breaking key.

The search loops of the source are `while frontier:` loops; they are
embedded as a one-iteration step function (`step`) driven by a fuel-indexed
loop (`loop`).  `loop` returns `none` only when fuel runs out; the fuel
supplied by the top-level entry points is proved sufficient
(claim C9), so the embedded functions model total executions.

The `time_ms` entry of the returned statistics dictionary (wall-clock
time) is not modelled: it is real time, outside a shallow embedding.
-/

namespace Class5

/-- Grid position `(row, column)`, mirroring `Position = Tuple[int, int]`. -/
abbrev Position : Type := Int × Int

/-- The four cardinal move labels `"N", "E", "S", "W"` of the source. -/
inductive Action : Type where
  | N
  | E
  | S
  | W
deriving DecidableEq, Repr

/-- Modelled from the spec: `warehouse_env.py` is not under `src/`; §4.3 of
the spec says the environment supplies "a fixed mapping from each of four
direction labels to a (row-delta, column-delta) pair" of cardinal move
vectors.  Rows grow southward, columns grow eastward. -/
def MOVE_DELTAS : Action → Int × Int
  | .N => (-1, 0)
  | .E => (0, 1)
  | .S => (1, 0)
  | .W => (0, -1)

/-- The neighbor-loop iteration order `for act in ["N", "E", "S", "W"]`. -/
def cardinalActions : List Action := [.N, .E, .S, .W]

/-- The cell reached from `p` by move `a`: `(r + dr, c + dc)`. -/
def stepPos (p : Position) (a : Action) : Position :=
  (p.1 + (MOVE_DELTAS a).1, p.2 + (MOVE_DELTAS a).2)

/-- Modelled from the spec: `warehouse_env.py` is not under `src/`; §4.3 of
the spec reduces the environment to one predicate, "`is_impassable(row, col)
-> bool` that returns true for out-of-bounds cells and for cells marked as
obstacles" (called `_is_wall` at every use site in `src/`). -/
structure Env : Type where
  is_wall : Int → Int → Bool

/-- The statistics dictionary both searches return.  Wall-clock `time_ms`
is not modelled (see the module docstring). -/
structure Stats : Type where
  nodes_expanded : Nat
  path_length : Option Nat
  frontier_peak : Nat
deriving DecidableEq, Repr

/-- The `(path, stats)` pair both searches return: the path is a list of
positions, or `None` when no path was found. -/
abbrev SearchResult : Type := Option (List Position) × Stats

/-- Outcome of one iteration of a `while frontier:` loop body: either the
function returns (`done`) or the loop continues in a new state (`next`). -/
inductive StepRes (σ ρ : Type) : Type where
  | next : σ → StepRes σ ρ
  | done : ρ → StepRes σ ρ

/-- Strict lexicographic order on the `(cost, id)` key of a heap entry,
the order `heapq` compares pushed tuples by (the node component is never
reached because ids of live entries are distinct). -/
def keyLtB (a b : Nat × Nat) : Bool :=
  decide (a.1 < b.1) || (decide (a.1 = b.1) && decide (a.2 < b.2))

/-- The `heapq` frontier, embedded as a list sorted by `(cost, id)`:
`heapPush` inserts in order, `heappop` takes the head. -/
def heapPush {α : Type} : List (Nat × Nat × α) → Nat × Nat × α → List (Nat × Nat × α)
  | [], e => [e]
  | x :: xs, e =>
    if keyLtB (e.1, e.2.1) (x.1, x.2.1) then e :: x :: xs else x :: heapPush xs e

/-- First-match association-list lookup, the dictionary read
`explored[pos]` / `pos in explored` (insertion conses in front, so the
first match is the most recent write, as in a `dict`). -/
def lookupPos : List (Position × Nat) → Position → Option Nat
  | [], _ => none
  | (q, g) :: rest, p => if q = p then some g else lookupPos rest p

/-- Membership in a list of positions, the set test `pos in explored`. -/
def memPos (l : List Position) (p : Position) : Bool :=
  l.any fun q => decide (q = p)

namespace ucs

/-- `Node` of `ucs_pathfinder.py`: position, optional parent, the move that
produced it, and the path cost `g` from the start. -/
inductive Node : Type where
  | mk : Position → Option Node → Option Action → Nat → Node

/-- `self.position`. -/
def Node.position : Node → Position
  | .mk p _ _ _ => p

/-- `self.parent`. -/
def Node.parent : Node → Option Node
  | .mk _ par _ _ => par

/-- `self.g`. -/
def Node.g : Node → Nat
  | .mk _ _ _ g => g

/-- `Node.path`: reconstruct the start-to-node path via parent links. -/
def Node.path : Node → List Position
  | .mk p none _ _ => [p]
  | .mk p (some par) _ _ => Node.path par ++ [p]

/-- Search state of `uniformcost_search` between loop iterations:
frontier heap, `explored` cost map (as insertion trace, newest first),
`frontier_peak`, `nodes_expanded`, and the next node-creation index. -/
structure State : Type where
  frontier : List (Nat × Nat × Node)
  explored : List (Position × Nat)
  frontier_peak : Nat
  nodes_expanded : Nat
  nextIdx : Nat

/-- Push condition `child_pos not in explored or explored[child_pos] > child_g`. -/
def shouldPush (explored : List (Position × Nat)) (p : Position) (g : Nat) : Bool :=
  match lookupPos explored p with
  | none => true
  | some c => decide (g < c)

/-- One turn of the neighbor loop body for move `act`: skip walls, skip
already-improved positions, otherwise create the child node and push it. -/
def pushChild (ids : Nat → Nat) (env : Env) (explored : List (Position × Nat))
    (node : Node) (acc : List (Nat × Nat × Node) × Nat) (act : Action) :
    List (Nat × Nat × Node) × Nat :=
  let np := stepPos node.position act
  if env.is_wall np.1 np.2 then acc
  else
    let child_g := node.g + 1
    if shouldPush explored np child_g then
      (heapPush acc.1 (child_g, ids acc.2, Node.mk np (some node) (some act) child_g),
        acc.2 + 1)
    else acc

/-- The full neighbor loop `for act in ["N", "E", "S", "W"]`, returning the
grown frontier and the next creation index. -/
def expandChildren (ids : Nat → Nat) (env : Env) (explored : List (Position × Nat))
    (node : Node) (acc : List (Nat × Nat × Node) × Nat) :
    List (Nat × Nat × Node) × Nat :=
  List.foldl (pushChild ids env explored node) acc cardinalActions

/-- The skip test `node.position in explored and explored[node.position] <= node.g`. -/
def staleCheck (explored : List (Position × Nat)) (node : Node) : Bool :=
  match lookupPos explored node.position with
  | some c => decide (c ≤ node.g)
  | none => false

/-- One iteration of the `while frontier:` loop of `uniformcost_search`:
pop the minimum entry; return the path if it is the goal; skip it if a
cheaper finalization exists; otherwise finalize, stop if the expansion cap
is exceeded, and push the children of the popped node. -/
def step (ids : Nat → Nat) (goal : Position) (env : Env) (max_expansions : Nat)
    (s : State) : StepRes State SearchResult :=
  match s.frontier with
  | [] => .done (none, ⟨s.nodes_expanded, none, s.frontier_peak⟩)
  | (_, _, node) :: rest =>
    if node.position = goal then
      .done (some node.path, ⟨s.nodes_expanded, some node.path.length, s.frontier_peak⟩)
    else
      if staleCheck s.explored node then
        .next ⟨rest, s.explored, s.frontier_peak, s.nodes_expanded, s.nextIdx⟩
      else
        let explored' := (node.position, node.g) :: s.explored
        let ne' := s.nodes_expanded + 1
        if max_expansions < ne' then
          .done (none, ⟨ne', none, s.frontier_peak⟩)
        else
          let fi := expandChildren ids env explored' node (rest, s.nextIdx)
          .next ⟨fi.1, explored', max s.frontier_peak fi.1.length, ne', fi.2⟩

/-- The `while frontier:` loop, driven by fuel.  `none` means the fuel ran
out; the top-level entry point supplies fuel proved sufficient. -/
def loop (ids : Nat → Nat) (goal : Position) (env : Env) (max_expansions : Nat) :
    Nat → State → Option SearchResult
  | 0, _ => none
  | fuel + 1, s =>
    match step ids goal env max_expansions s with
    | .done r => some r
    | .next s' => loop ids goal env max_expansions fuel s'

/-- The state reached after `k` completed loop iterations (`none` once the
loop has returned within `k` iterations).  Used to state run invariants. -/
def states (ids : Nat → Nat) (goal : Position) (env : Env) (max_expansions : Nat)
    (s : State) : Nat → Option State
  | 0 => some s
  | k + 1 =>
    match states ids goal env max_expansions s k with
    | none => none
    | some s' =>
      match step ids goal env max_expansions s' with
      | .done _ => none
      | .next s'' => some s''

/-- State before the first iteration: frontier `[(0, id(start_node),
start_node)]`, empty `explored`, `frontier_peak = 1`, `nodes_expanded = 0`;
the start node has creation index `0`. -/
def init (ids : Nat → Nat) (start : Position) : State :=
  ⟨heapPush [] (0, ids 0, Node.mk start none none 0), [], 1, 0, 1⟩

/-- Fuel supplied to the loop; proved sufficient for termination (C9). -/
def fuelFor (max_expansions : Nat) : Nat := 4 * max_expansions + 6

/-- `uniformcost_search(start, goal, env, max_expansions)` (the Python
default for `max_expansions` is `10000`).  `ids` is the object-identity
supply (see the module docstring). -/
def uniformcost_search (ids : Nat → Nat) (start goal : Position) (env : Env)
    (max_expansions : Nat) : Option SearchResult :=
  loop ids goal env max_expansions (fuelFor max_expansions) (init ids start)

end ucs

namespace astar

/-- `manhattan_distance(pos, goal)`: `|r - r'| + |c - c'|` (integer
valued, so `Nat` in the embedding). -/
def manhattan_distance (pos goal : Position) : Nat :=
  (pos.1 - goal.1).natAbs + (pos.2 - goal.2).natAbs

/-- `Node` of `astar_pathfinder.py`: position, optional parent, producing
move, path cost `g` and heuristic value `h`. -/
inductive Node : Type where
  | mk : Position → Option Node → Option Action → Nat → Nat → Node

/-- `self.position`. -/
def Node.position : Node → Position
  | .mk p _ _ _ _ => p

/-- `self.parent`. -/
def Node.parent : Node → Option Node
  | .mk _ par _ _ _ => par

/-- `self.g`. -/
def Node.g : Node → Nat
  | .mk _ _ _ g _ => g

/-- `self.h`. -/
def Node.h : Node → Nat
  | .mk _ _ _ _ h => h

/-- `self.f = g + h`, computed in the constructor. -/
def Node.f (n : Node) : Nat := n.g + n.h

/-- `Node.path`: reconstruct the start-to-node path via parent links. -/
def Node.path : Node → List Position
  | .mk p none _ _ _ => [p]
  | .mk p (some par) _ _ _ => Node.path par ++ [p]

/-- Search state of `astar_search` between loop iterations: frontier heap,
`explored` visited set (as insertion list, newest first), `frontier_peak`,
`nodes_expanded`, and the next node-creation index. -/
structure State : Type where
  frontier : List (Nat × Nat × Node)
  explored : List Position
  frontier_peak : Nat
  nodes_expanded : Nat
  nextIdx : Nat

/-- One turn of the neighbor loop body for move `act`: skip walls, skip
explored positions, otherwise create the child node and push it with
priority `child_node.f`. -/
def pushChild (ids : Nat → Nat) (env : Env) (heuristic : Position → Position → Nat)
    (goal : Position) (explored : List Position) (node : Node)
    (acc : List (Nat × Nat × Node) × Nat) (act : Action) :
    List (Nat × Nat × Node) × Nat :=
  let np := stepPos node.position act
  if env.is_wall np.1 np.2 then acc
  else if memPos explored np then acc
  else
    let child := Node.mk np (some node) (some act) (node.g + 1) (heuristic np goal)
    (heapPush acc.1 (child.f, ids acc.2, child), acc.2 + 1)

/-- The full neighbor loop `for act in ["N", "E", "S", "W"]`. -/
def expandChildren (ids : Nat → Nat) (env : Env) (heuristic : Position → Position → Nat)
    (goal : Position) (explored : List Position) (node : Node)
    (acc : List (Nat × Nat × Node) × Nat) : List (Nat × Nat × Node) × Nat :=
  List.foldl (pushChild ids env heuristic goal explored node) acc cardinalActions

/-- One iteration of the `while frontier:` loop of `astar_search`: pop the
minimum entry; return the path if it is the goal; skip it if its position
is explored; otherwise finalize, stop if the expansion cap is exceeded,
and push the children of the popped node. -/
def step (ids : Nat → Nat) (goal : Position) (env : Env)
    (heuristic : Position → Position → Nat) (max_expansions : Nat) (s : State) :
    StepRes State SearchResult :=
  match s.frontier with
  | [] => .done (none, ⟨s.nodes_expanded, none, s.frontier_peak⟩)
  | (_, _, node) :: rest =>
    if node.position = goal then
      .done (some node.path, ⟨s.nodes_expanded, some node.path.length, s.frontier_peak⟩)
    else
      if memPos s.explored node.position then
        .next ⟨rest, s.explored, s.frontier_peak, s.nodes_expanded, s.nextIdx⟩
      else
        let explored' := node.position :: s.explored
        let ne' := s.nodes_expanded + 1
        if max_expansions < ne' then
          .done (none, ⟨ne', none, s.frontier_peak⟩)
        else
          let fi := expandChildren ids env heuristic goal explored' node (rest, s.nextIdx)
          .next ⟨fi.1, explored', max s.frontier_peak fi.1.length, ne', fi.2⟩

/-- The `while frontier:` loop, driven by fuel. -/
def loop (ids : Nat → Nat) (goal : Position) (env : Env)
    (heuristic : Position → Position → Nat) (max_expansions : Nat) :
    Nat → State → Option SearchResult
  | 0, _ => none
  | fuel + 1, s =>
    match step ids goal env heuristic max_expansions s with
    | .done r => some r
    | .next s' => loop ids goal env heuristic max_expansions fuel s'

/-- The state reached after `k` completed loop iterations. -/
def states (ids : Nat → Nat) (goal : Position) (env : Env)
    (heuristic : Position → Position → Nat) (max_expansions : Nat) (s : State) :
    Nat → Option State
  | 0 => some s
  | k + 1 =>
    match states ids goal env heuristic max_expansions s k with
    | none => none
    | some s' =>
      match step ids goal env heuristic max_expansions s' with
      | .done _ => none
      | .next s'' => some s''

/-- State before the first iteration: the start node carries
`h = heuristic(start, goal)` and is pushed with priority `start_node.f`. -/
def init (ids : Nat → Nat) (start goal : Position)
    (heuristic : Position → Position → Nat) : State :=
  ⟨heapPush [] ((Node.mk start none none 0 (heuristic start goal)).f, ids 0,
      Node.mk start none none 0 (heuristic start goal)), [], 1, 0, 1⟩

/-- Fuel supplied to the loop; proved sufficient for termination (C9). -/
def fuelFor (max_expansions : Nat) : Nat := 4 * max_expansions + 6

/-- `astar_search(start, goal, env, heuristic, max_expansions)` (the Python
defaults are `manhattan_distance` and `10000`).  `ids` is the
object-identity supply (see the module docstring). -/
def astar_search (ids : Nat → Nat) (start goal : Position) (env : Env)
    (heuristic : Position → Position → Nat) (max_expansions : Nat) :
    Option SearchResult :=
  loop ids goal env heuristic max_expansions (fuelFor max_expansions)
    (init ids start goal heuristic)

end astar


/-! ### Derived definitions: orders, reachability, path predicates,
invariants, measures, and concrete instances -/

/-- Non-strict lexicographic order on `(cost, id)` keys of heap entries. -/
def entryLE {α : Type} (e f : Nat × Nat × α) : Prop :=
  e.1 < f.1 ∨ (e.1 = f.1 ∧ e.2.1 ≤ f.2.1)

/-! ### Reachability over passable cardinal moves -/

/-- `Reach env start p n`: there is a sequence of `n` cardinal moves from
`start` to `p` in which every cell moved into is passable (the start cell
itself is never tested by the searches, so its passability is not
required). -/
inductive Reach (env : Env) (start : Position) : Position → Nat → Prop where
  | refl : Reach env start start 0
  | step : ∀ {p : Position} {n : Nat} (a : Action), Reach env start p n →
      env.is_wall (stepPos p a).1 (stepPos p a).2 = false →
      Reach env start (stepPos p a) (n + 1)

/-- A cell is reachable if some move sequence leads to it. -/
def Reachable (env : Env) (start p : Position) : Prop := ∃ n, Reach env start p n

/-- `n` is the true shortest-path cost from `start` to `p`. -/
def IsDist (env : Env) (start p : Position) (n : Nat) : Prop :=
  Reach env start p n ∧ ∀ m, Reach env start p m → n ≤ m

/-! ### Path predicates -/

/-- `q` is one cardinal move (one of the four `MOVE_DELTAS`) from `p`. -/
def isStepB (p q : Position) : Bool :=
  cardinalActions.any fun a => decide (q = stepPos p a)

/-- Every two consecutive positions of the list differ by one cardinal move. -/
def chainB : List Position → Bool
  | [] => true
  | [_] => true
  | p :: q :: rest => isStepB p q && chainB (q :: rest)

/-- Every position of the list except the first is passable. -/
def tailNoWall (env : Env) (l : List Position) : Bool :=
  (l.drop 1).all fun p => !env.is_wall p.1 p.2

/-- `l` is a path from `start` to `goal` over passable cardinal moves:
head `start`, last `goal`, consecutive cardinal steps, every moved-into
cell passable. -/
def pathOk (env : Env) (start goal : Position) (l : List Position) : Bool :=
  decide (l.head? = some start) && decide (l.getLast? = some goal) &&
    chainB l && tailNoWall env l

/-- The property claimed for returned paths: head `start`, last `goal`,
consecutive cardinal steps, and no position anywhere on the path (the
start included) impassable. -/
def pathObeys (env : Env) (start goal : Position) (l : List Position) : Bool :=
  decide (l.head? = some start) && decide (l.getLast? = some goal) &&
    chainB l && l.all fun p => !env.is_wall p.1 p.2

/-- `l` is a shortest path from `start` to `goal` over passable cardinal
moves. -/
def IsShortestPath (env : Env) (start goal : Position) (l : List Position) : Prop :=
  pathOk env start goal l = true ∧
    ∀ l', pathOk env start goal l' = true → l.length ≤ l'.length

/-- Reinterpret a heap entry under another id supply, keyed by creation
index. -/
def mapEntry {α : Type} (ids : Nat → Nat) (e : Nat × Nat × α) : Nat × Nat × α :=
  (e.1, ids e.2.1, e.2.2)

namespace ucs

/-- A node is well formed when its parent chain realizes an actual search
path: the root sits at `start` with cost `0`, and every child was produced
from its parent by one cardinal move into a passable cell, at cost `+1`. -/
def Node.wf (env : Env) (start : Position) : Node → Prop
  | .mk p none _ g => p = start ∧ g = 0
  | .mk p (some par) _ g =>
      Node.wf env start par ∧ (∃ a, p = stepPos par.position a) ∧
        env.is_wall p.1 p.2 = false ∧ g = par.g + 1

/-- Invariant of the `uniformcost_search` loop.  `explored` is the
finalization trace (newest record first); its records carry true
shortest-path costs; the frontier is a sorted heap of well-formed nodes;
every explored cell's passable neighbors are explored or on the frontier
at cost at most one more; the start is covered; the goal is never
finalized. -/
structure Inv (start goal : Position) (env : Env) (max_expansions : Nat)
    (s : State) : Prop where
  wf_frontier : ∀ e ∈ s.frontier, (e.2.2).wf env start ∧ e.1 = (e.2.2).g
  sorted : s.frontier.Pairwise entryLE
  trace_dist : ∀ pr ∈ s.explored, IsDist env start pr.1 pr.2
  trace_nodup : (s.explored.map Prod.fst).Nodup
  trace_mono : s.explored.Pairwise fun a b => b.2 ≤ a.2
  frontier_ge : ∀ e ∈ s.frontier, ∀ pr, s.explored.head? = some pr → pr.2 ≤ e.1
  covered : ∀ pr ∈ s.explored, ∀ a : Action,
      env.is_wall (stepPos pr.1 a).1 (stepPos pr.1 a).2 = false →
      (∃ gw, lookupPos s.explored (stepPos pr.1 a) = some gw) ∨
        ∃ e ∈ s.frontier, (e.2.2).position = stepPos pr.1 a ∧ e.1 ≤ pr.2 + 1
  start_cov : lookupPos s.explored start = some 0 ∨
      ∃ e ∈ s.frontier, (e.2.2).position = start ∧ e.1 = 0
  goal_not : lookupPos s.explored goal = none
  count : s.nodes_expanded = s.explored.length
  ne_le : s.nodes_expanded ≤ max_expansions

/-- Decreasing measure of the UCS loop: every iteration pops one entry and
pushes at most four, and pushes happen only on the at most
`max_expansions` permitted expansions. -/
def loopMeasure (max_expansions : Nat) (s : State) : Nat :=
  s.frontier.length + 4 * (max_expansions - s.nodes_expanded) + 4

/-- Reinterpret a UCS state under another id supply. -/
def mapIds (ids : Nat → Nat) (s : State) : State :=
  ⟨s.frontier.map (mapEntry ids), s.explored, s.frontier_peak, s.nodes_expanded, s.nextIdx⟩

end ucs

namespace astar

/-- Well-formed A* node: like the UCS version, and additionally the stored
heuristic value is `heuristic(position, goal)` as computed at creation. -/
def Node.wf (env : Env) (start : Position) (heuristic : Position → Position → Nat)
    (goal : Position) : Node → Prop
  | .mk p none _ g h =>
      p = start ∧ g = 0 ∧ h = heuristic p goal
  | .mk p (some par) _ g h =>
      Node.wf env start heuristic goal par ∧ (∃ a, p = stepPos par.position a) ∧
        env.is_wall p.1 p.2 = false ∧ g = par.g + 1 ∧ h = heuristic p goal

/-- Heuristic consistency along passable steps (Manhattan distance has it). -/
def Consistent (env : Env) (goal : Position) (heuristic : Position → Position → Nat) : Prop :=
  ∀ (p : Position) (a : Action),
    env.is_wall (stepPos p a).1 (stepPos p a).2 = false →
    heuristic p goal ≤ heuristic (stepPos p a) goal + 1

/-- Invariant of the `astar_search` loop. -/
structure Inv (start goal : Position) (env : Env)
    (heuristic : Position → Position → Nat) (max_expansions : Nat) (s : State) : Prop where
  wf_frontier : ∀ e ∈ s.frontier, (e.2.2).wf env start heuristic goal ∧ e.1 = (e.2.2).f
  sorted : s.frontier.Pairwise entryLE
  expl_dist : ∀ u ∈ s.explored, ∃ gu, IsDist env start u gu
  expl_nodup : s.explored.Nodup
  expl_bound : ∀ e ∈ s.frontier, ∀ u ∈ s.explored, ∀ gu, IsDist env start u gu →
      gu + heuristic u goal ≤ e.1
  covered : ∀ u ∈ s.explored, ∀ gu, IsDist env start u gu → ∀ a : Action,
      env.is_wall (stepPos u a).1 (stepPos u a).2 = false →
      stepPos u a ∈ s.explored ∨
        ∃ e ∈ s.frontier, (e.2.2).position = stepPos u a ∧ (e.2.2).g ≤ gu + 1
  start_cov : start ∈ s.explored ∨
      ∃ e ∈ s.frontier, (e.2.2).position = start ∧ (e.2.2).g = 0
  goal_not : goal ∉ s.explored
  count : s.nodes_expanded = s.explored.length
  ne_le : s.nodes_expanded ≤ max_expansions

/-- Decreasing measure of the A* loop. -/
def loopMeasure (max_expansions : Nat) (s : State) : Nat :=
  s.frontier.length + 4 * (max_expansions - s.nodes_expanded) + 4

/-- Reinterpret an A* state under another id supply. -/
def mapIds (ids : Nat → Nat) (s : State) : State :=
  ⟨s.frontier.map (mapEntry ids), s.explored, s.frontier_peak, s.nodes_expanded, s.nextIdx⟩

end astar

/-! ### Concrete instances used by witnesses and counterexamples -/

/-- The creation-order id supply (a monotonic insertion counter). -/
def idSeq : Nat → Nat := fun n => n

/-- Another strictly monotonic id supply. -/
def idDouble : Nat → Nat := fun n => 2 * n

/-- An injective id supply that swaps the ids of the third and fourth
created nodes: a perfectly possible outcome of CPython address-based
`id()` assignment, but not monotonic in creation order. -/
def idSwap34 : Nat → Nat := fun n => if n = 3 then 4 else if n = 4 then 3 else n

/-- An unbounded open grid: no walls at all. -/
def envOpen : Env := ⟨fun _ _ => false⟩

/-- A 2×2 open grid: rows and columns 0..1 passable, the rest walls. -/
def envTwo : Env := ⟨fun r c => !(decide (0 ≤ r ∧ r ≤ 1 ∧ 0 ≤ c ∧ c ≤ 1))⟩

/-- A grid in which only the cell (0, 0) is passable. -/
def envCell : Env := ⟨fun r c => !(decide (r = 0 ∧ c = 0))⟩

/-! ### The heap order -/

theorem entryLE_cost {α : Type} {e f : Nat × Nat × α} (h : entryLE e f) : e.1 ≤ f.1 := by
  rcases h with h | ⟨h, _⟩
  · exact Nat.le_of_lt h
  · exact Nat.le_of_eq h

theorem entryLE_trans {α : Type} {e f g : Nat × Nat × α} (h₁ : entryLE e f)
    (h₂ : entryLE f g) : entryLE e g := by
  rcases h₁ with h₁ | ⟨h₁, h₁'⟩ <;> rcases h₂ with h₂ | ⟨h₂, h₂'⟩
  · exact Or.inl (h₁.trans h₂)
  · exact Or.inl (h₂ ▸ h₁)
  · exact Or.inl (h₁ ▸ h₂)
  · exact Or.inr ⟨h₁.trans h₂, h₁'.trans h₂'⟩

theorem entryLE_of_keyLtB {α : Type} {e f : Nat × Nat × α}
    (h : keyLtB (e.1, e.2.1) (f.1, f.2.1) = true) : entryLE e f := by
  simp only [keyLtB, Bool.or_eq_true, Bool.and_eq_true, decide_eq_true_eq] at h
  rcases h with h | ⟨h, h'⟩
  · exact Or.inl h
  · exact Or.inr ⟨h, Nat.le_of_lt h'⟩

theorem entryLE_of_not_keyLtB {α : Type} {e f : Nat × Nat × α}
    (h : keyLtB (e.1, e.2.1) (f.1, f.2.1) = false) : entryLE f e := by
  simp only [keyLtB, Bool.or_eq_false_iff, Bool.and_eq_false_iff, decide_eq_false_iff_not,
    Nat.not_lt] at h
  obtain ⟨h₁, h₂⟩ := h
  rcases Nat.lt_or_ge f.1 e.1 with hlt | hge
  · exact Or.inl hlt
  · have he : e.1 = f.1 := Nat.le_antisymm hge h₁
    rcases h₂ with h₂ | h₂
    · exact absurd he h₂
    · exact Or.inr ⟨he.symm, h₂⟩

theorem heapPush_cons {α : Type} (y : Nat × Nat × α) (ys : List (Nat × Nat × α))
    (e : Nat × Nat × α) :
    heapPush (y :: ys) e =
      if keyLtB (e.1, e.2.1) (y.1, y.2.1) then e :: y :: ys else y :: heapPush ys e := rfl

theorem heapPush_mem {α : Type} {l : List (Nat × Nat × α)} {e x : Nat × Nat × α} :
    x ∈ heapPush l e ↔ x ∈ l ∨ x = e := by
  induction l with
  | nil => simp [heapPush]
  | cons y ys ih =>
    rw [heapPush_cons]
    by_cases h : keyLtB (e.1, e.2.1) (y.1, y.2.1) = true
    · rw [if_pos h]
      simp only [List.mem_cons]
      tauto
    · rw [if_neg h]
      simp only [List.mem_cons, ih]
      tauto

theorem heapPush_length {α : Type} (l : List (Nat × Nat × α)) (e : Nat × Nat × α) :
    (heapPush l e).length = l.length + 1 := by
  induction l with
  | nil => rfl
  | cons y ys ih =>
    rw [heapPush_cons]
    by_cases h : keyLtB (e.1, e.2.1) (y.1, y.2.1) = true
    · rw [if_pos h]
      rfl
    · rw [if_neg h]
      simp [ih]

theorem heapPush_sorted {α : Type} {l : List (Nat × Nat × α)} {e : Nat × Nat × α}
    (hl : l.Pairwise entryLE) : (heapPush l e).Pairwise entryLE := by
  induction l with
  | nil => simp [heapPush]
  | cons y ys ih =>
    rcases List.pairwise_cons.mp hl with ⟨hy, hys⟩
    rw [heapPush_cons]
    by_cases h : keyLtB (e.1, e.2.1) (y.1, y.2.1) = true
    · rw [if_pos h]
      have he : entryLE e y := entryLE_of_keyLtB h
      refine List.pairwise_cons.mpr ⟨?_, hl⟩
      intro z hz
      rcases List.mem_cons.mp hz with rfl | hz
      · exact he
      · exact entryLE_trans he (hy z hz)
    · rw [if_neg h]
      have he : entryLE y e := entryLE_of_not_keyLtB (Bool.eq_false_iff.mpr h)
      refine List.pairwise_cons.mpr ⟨?_, ih hys⟩
      intro z hz
      rcases heapPush_mem.mp hz with hz | rfl
      · exact hy z hz
      · exact he

theorem sorted_head_le {α : Type} {x : Nat × Nat × α} {xs : List (Nat × Nat × α)}
    (h : (x :: xs).Pairwise entryLE) {e : Nat × Nat × α} (he : e ∈ x :: xs) :
    x.1 ≤ e.1 := by
  rcases List.mem_cons.mp he with rfl | he
  · exact Nat.le_refl _
  · exact entryLE_cost ((List.pairwise_cons.mp h).1 e he)

/-! ### Lookup and membership lemmas -/

theorem lookupPos_eq_none_iff {l : List (Position × Nat)} {p : Position} :
    lookupPos l p = none ↔ p ∉ l.map Prod.fst := by
  induction l with
  | nil => simp [lookupPos]
  | cons x xs ih =>
    by_cases h : x.1 = p
    · simp [lookupPos, h]
    · simp [lookupPos, h, ih, Ne.symm h]

theorem lookupPos_some_mem {l : List (Position × Nat)} {p : Position} {g : Nat}
    (h : lookupPos l p = some g) : (p, g) ∈ l := by
  induction l with
  | nil => simp [lookupPos] at h
  | cons x xs ih =>
    by_cases hx : x.1 = p
    · simp only [lookupPos, hx, if_true, Option.some.injEq] at h
      subst h
      have : x = (x.1, x.2) := rfl
      rw [hx] at this
      exact this ▸ List.mem_cons_self x xs
    · simp only [lookupPos, hx, if_false] at h
      exact List.mem_cons_of_mem x (ih h)

theorem lookupPos_isSome_of_some {l : List (Position × Nat)} {p : Position} {g : Nat}
    (x : Position × Nat) (h : lookupPos l p = some g) :
    ∃ g', lookupPos (x :: l) p = some g' := by
  by_cases hx : x.1 = p
  · exact ⟨x.2, by simp [lookupPos, hx]⟩
  · exact ⟨g, by simp [lookupPos, hx, h]⟩

theorem memPos_iff {l : List Position} {p : Position} : memPos l p = true ↔ p ∈ l := by
  simp only [memPos, List.any_eq_true, decide_eq_true_eq]
  constructor
  · rintro ⟨q, hq, rfl⟩
    exact hq
  · intro h
    exact ⟨p, h, rfl⟩

theorem isDist_unique {env : Env} {start p : Position} {n m : Nat}
    (hn : IsDist env start p n) (hm : IsDist env start p m) : n = m :=
  Nat.le_antisymm (hn.2 m hm.1) (hm.2 n hn.1)

theorem reachable_isDist {env : Env} {start p : Position} (h : Reachable env start p) :
    ∃ n, IsDist env start p n := by
  classical
  obtain ⟨n, hn⟩ := h
  induction n using Nat.strong_induction_on with
  | _ n ih =>
    by_cases hmin : ∀ m, Reach env start p m → n ≤ m
    · exact ⟨n, hn, hmin⟩
    · push_neg at hmin
      obtain ⟨m, hm, hmn⟩ := hmin
      exact ih m hmn hm

theorem isDist_start {env : Env} {start : Position} : IsDist env start start 0 :=
  ⟨Reach.refl, fun m _ => Nat.zero_le m⟩

theorem isStepB_of_action (p : Position) (a : Action) : isStepB p (stepPos p a) = true := by
  have ha : a ∈ cardinalActions := by cases a <;> simp [cardinalActions]
  simp only [isStepB, List.any_eq_true, decide_eq_true_eq]
  exact ⟨a, ha, rfl⟩

theorem isStepB_exists {p q : Position} (h : isStepB p q = true) :
    ∃ a : Action, q = stepPos p a := by
  simp only [isStepB, List.any_eq_true, decide_eq_true_eq] at h
  obtain ⟨a, _, ha⟩ := h
  exact ⟨a, ha⟩

theorem chainB_append_singleton (l : List Position) (b : Position) :
    chainB (l ++ [b]) = true ↔
      chainB l = true ∧ ∀ a, l.getLast? = some a → isStepB a b = true := by
  induction l with
  | nil => simp [chainB]
  | cons x xs ih =>
    cases xs with
    | nil => simp [chainB]
    | cons y ys =>
      have hlast : (x :: y :: ys).getLast? = (y :: ys).getLast? := by
        simp [List.getLast?_cons_cons]
      constructor
      · intro h
        have h' : isStepB x y = true ∧ chainB ((y :: ys) ++ [b]) = true := by
          simpa [chainB] using h
        obtain ⟨hc, hrest⟩ := ih.mp h'.2
        refine ⟨by simp [chainB, h'.1, hc], ?_⟩
        intro a ha
        rw [hlast] at ha
        exact hrest a ha
      · rintro ⟨hc, hstep⟩
        have h1 : isStepB x y = true ∧ chainB (y :: ys) = true := by
          simpa [chainB] using hc
        have h2 : chainB ((y :: ys) ++ [b]) = true :=
          ih.mpr ⟨h1.2, fun a ha => hstep a (hlast ▸ ha)⟩
        simpa [chainB] using And.intro h1.1 h2

theorem tailNoWall_append_singleton {env : Env} {l : List Position} {b : Position}
    (hl : l ≠ []) :
    tailNoWall env (l ++ [b]) = true ↔
      tailNoWall env l = true ∧ env.is_wall b.1 b.2 = false := by
  cases l with
  | nil => exact absurd rfl hl
  | cons x xs =>
    simp [tailNoWall, Bool.and_eq_true, Bool.not_eq_true']

theorem pathOk_reach {env : Env} {start goal : Position} {l : List Position}
    (h : pathOk env start goal l = true) : Reach env start goal (l.length - 1) := by
  induction l using List.reverseRecOn generalizing goal with
  | nil => simp [pathOk] at h
  | append_singleton xs b ih =>
    simp only [pathOk, Bool.and_eq_true, decide_eq_true_eq] at h
    obtain ⟨⟨⟨hhead, hlast⟩, hchain⟩, hwall⟩ := h
    have hb : b = goal := by simpa using hlast
    subst hb
    cases xs with
    | nil =>
      have : b = start := by simpa using hhead
      subst this
      exact Reach.refl
    | cons x xs' =>
      have hne : (x :: xs') ≠ ([] : List Position) := by simp
      obtain ⟨hcx, hstep⟩ := (chainB_append_singleton _ _).mp hchain
      obtain ⟨hw, hbw⟩ := (tailNoWall_append_singleton hne).mp hwall
      set a := (x :: xs').getLast hne with ha
      have hla : (x :: xs').getLast? = some a := List.getLast?_eq_getLast _ hne
      obtain ⟨act, hact⟩ := isStepB_exists (hstep a hla)
      have hreach : Reach env start a ((x :: xs').length - 1) := by
        apply ih
        simp only [pathOk, Bool.and_eq_true, decide_eq_true_eq]
        refine ⟨⟨⟨?_, hla⟩, hcx⟩, hw⟩
        simpa using hhead
      have hwall' : env.is_wall (stepPos a act).1 (stepPos a act).2 = false := by
        rw [← hact]
        exact hbw
      have := Reach.step act hreach hwall'
      rw [← hact] at this
      have hlen : ((x :: xs') ++ [b]).length - 1 = ((x :: xs').length - 1) + 1 := by
        simp
      rw [hlen]
      exact this

theorem all_nonwall_of_head_tail {env : Env} {l : List Position} {start : Position}
    (hh : l.head? = some start) (ht : tailNoWall env l = true)
    (hs : env.is_wall start.1 start.2 = false) :
    (l.all fun p => !env.is_wall p.1 p.2) = true := by
  cases l with
  | nil => simp at hh
  | cons x xs =>
    have hx : x = start := by simpa using hh
    subst hx
    have ht' : (xs.all fun p => !env.is_wall p.1 p.2) = true := by
      simpa [tailNoWall] using ht
    simp [List.all_cons, hs, ht']

/-! ### Well-formed UCS nodes -/

namespace ucs

theorem Node.path_ne_nil : ∀ n : Node, n.path ≠ []
  | .mk _ none _ _ => by simp [Node.path]
  | .mk _ (some par) _ _ => by simp [Node.path]

theorem Node.path_getLast : ∀ n : Node, n.path.getLast? = some n.position
  | .mk p none _ _ => by simp [Node.path, Node.position]
  | .mk p (some par) _ _ => by
    simp [Node.path, Node.position, List.getLast?_concat]

theorem Node.path_head (env : Env) (start : Position) :
    ∀ n : Node, n.wf env start → n.path.head? = some start
  | .mk p none _ g, h => by
    simp [Node.path, h.1]
  | .mk p (some par) _ g, h => by
    have ih := Node.path_head env start par h.1
    cases hp : par.path with
    | nil => exact absurd hp (Node.path_ne_nil par)
    | cons x xs =>
      rw [hp] at ih
      simpa [Node.path, hp] using ih

theorem Node.wf_length (env : Env) (start : Position) :
    ∀ n : Node, n.wf env start → n.path.length = n.g + 1
  | .mk p none _ g, h => by simp [Node.path, Node.g, h.2]
  | .mk p (some par) _ g, h => by
    have ih := Node.wf_length env start par h.1
    simp [Node.path, Node.g, ih, h.2.2.2]

theorem Node.wf_chain (env : Env) (start : Position) :
    ∀ n : Node, n.wf env start → chainB n.path = true
  | .mk p none _ g, _ => by simp [Node.path, chainB]
  | .mk p (some par) _ g, h => by
    have ih := Node.wf_chain env start par h.1
    show chainB (par.path ++ [p]) = true
    refine (chainB_append_singleton _ _).mpr ⟨ih, ?_⟩
    intro a ha
    rw [Node.path_getLast par] at ha
    obtain ⟨act, hact⟩ := h.2.1
    cases ha
    rw [hact]
    exact isStepB_of_action _ _

theorem Node.wf_tailNoWall (env : Env) (start : Position) :
    ∀ n : Node, n.wf env start → tailNoWall env n.path = true
  | .mk p none _ g, _ => by simp [Node.path, tailNoWall]
  | .mk p (some par) _ g, h => by
    have ih := Node.wf_tailNoWall env start par h.1
    show tailNoWall env (par.path ++ [p]) = true
    exact (tailNoWall_append_singleton (Node.path_ne_nil par)).mpr ⟨ih, h.2.2.1⟩

theorem Node.wf_reach (env : Env) (start : Position) :
    ∀ n : Node, n.wf env start → Reach env start n.position n.g
  | .mk p none _ g, h => by
    obtain ⟨rfl, rfl⟩ := h
    exact Reach.refl
  | .mk p (some par) _ g, h => by
    have ih := Node.wf_reach env start par h.1
    obtain ⟨act, hact⟩ := h.2.1
    show Reach env start p g
    rw [hact, h.2.2.2]
    exact Reach.step act ih (by rw [← hact]; exact h.2.2.1)

theorem Node.wf_pathOk {env : Env} {start goal : Position} {n : Node}
    (h : n.wf env start) (hg : n.position = goal) :
    pathOk env start goal n.path = true := by
  simp only [pathOk, Bool.and_eq_true, decide_eq_true_eq]
  exact ⟨⟨⟨Node.path_head env start n h, hg ▸ Node.path_getLast n⟩,
    Node.wf_chain env start n h⟩, Node.wf_tailNoWall env start n h⟩

theorem Node.wf_pathObeys {env : Env} {start goal : Position} {n : Node}
    (h : n.wf env start) (hg : n.position = goal)
    (hs : env.is_wall start.1 start.2 = false) :
    pathObeys env start goal n.path = true := by
  simp only [pathObeys, Bool.and_eq_true, decide_eq_true_eq]
  exact ⟨⟨⟨Node.path_head env start n h, hg ▸ Node.path_getLast n⟩,
    Node.wf_chain env start n h⟩,
    all_nonwall_of_head_tail (Node.path_head env start n h)
      (Node.wf_tailNoWall env start n h) hs⟩

theorem staleCheck_true {explored : List (Position × Nat)} {node : Node}
    (h : staleCheck explored node = true) :
    ∃ c, lookupPos explored node.position = some c ∧ c ≤ node.g := by
  unfold staleCheck at h
  cases hc : lookupPos explored node.position with
  | none => rw [hc] at h; simp at h
  | some c =>
    rw [hc] at h
    simp only [decide_eq_true_eq] at h
    exact ⟨c, rfl, h⟩

theorem staleCheck_false {explored : List (Position × Nat)} {node : Node}
    (h : staleCheck explored node = false) :
    lookupPos explored node.position = none ∨
      ∃ c, lookupPos explored node.position = some c ∧ node.g < c := by
  unfold staleCheck at h
  cases hc : lookupPos explored node.position with
  | none => exact Or.inl rfl
  | some c =>
    rw [hc] at h
    simp only [decide_eq_false_iff_not, Nat.not_le] at h
    exact Or.inr ⟨c, rfl, h⟩

theorem pushChild_eq (ids : Nat → Nat) (env : Env) (explored : List (Position × Nat))
    (node : Node) (acc : List (Nat × Nat × Node) × Nat) (act : Action) :
    pushChild ids env explored node acc act =
      if env.is_wall (stepPos node.position act).1 (stepPos node.position act).2 then acc
      else if shouldPush explored (stepPos node.position act) (node.g + 1) then
        (heapPush acc.1 (node.g + 1, ids acc.2,
          Node.mk (stepPos node.position act) (some node) (some act) (node.g + 1)),
          acc.2 + 1)
      else acc := rfl

theorem pushChild_fst_mem (ids : Nat → Nat) (env : Env) (explored : List (Position × Nat))
    (node : Node) {acc : List (Nat × Nat × Node) × Nat} {act : Action}
    {e : Nat × Nat × Node} (h : e ∈ acc.1) :
    e ∈ (pushChild ids env explored node acc act).1 := by
  rw [pushChild_eq]
  by_cases hw : env.is_wall (stepPos node.position act).1 (stepPos node.position act).2 = true
  · rw [if_pos hw]
    exact h
  · rw [if_neg hw]
    by_cases hp : shouldPush explored (stepPos node.position act) (node.g + 1) = true
    · rw [if_pos hp]
      exact heapPush_mem.mpr (Or.inl h)
    · rw [if_neg hp]
      exact h

theorem foldl_pushChild_mem_mono (ids : Nat → Nat) (env : Env)
    (explored : List (Position × Nat)) (node : Node) :
    ∀ (acts : List Action) (acc : List (Nat × Nat × Node) × Nat) {e : Nat × Nat × Node},
      e ∈ acc.1 → e ∈ (List.foldl (pushChild ids env explored node) acc acts).1
  | [], _, _, h => h
  | _ :: acts, acc, _, h =>
    foldl_pushChild_mem_mono ids env explored node acts _
      (pushChild_fst_mem ids env explored node h)

theorem pushChild_fst_mem_inv (ids : Nat → Nat) (env : Env)
    (explored : List (Position × Nat)) (node : Node)
    {acc : List (Nat × Nat × Node) × Nat} {act : Action} {e : Nat × Nat × Node}
    (h : e ∈ (pushChild ids env explored node acc act).1) :
    e ∈ acc.1 ∨
      (e = (node.g + 1, ids acc.2,
          Node.mk (stepPos node.position act) (some node) (some act) (node.g + 1)) ∧
        env.is_wall (stepPos node.position act).1 (stepPos node.position act).2 = false) := by
  rw [pushChild_eq] at h
  by_cases hw : env.is_wall (stepPos node.position act).1 (stepPos node.position act).2 = true
  · rw [if_pos hw] at h
    exact Or.inl h
  · rw [if_neg hw] at h
    by_cases hp : shouldPush explored (stepPos node.position act) (node.g + 1) = true
    · rw [if_pos hp] at h
      rcases heapPush_mem.mp h with h | h
      · exact Or.inl h
      · exact Or.inr ⟨h, Bool.eq_false_iff.mpr hw⟩
    · rw [if_neg hp] at h
      exact Or.inl h

theorem foldl_pushChild_mem_inv (ids : Nat → Nat) (env : Env)
    (explored : List (Position × Nat)) (node : Node) :
    ∀ (acts : List Action) (acc : List (Nat × Nat × Node) × Nat) {e : Nat × Nat × Node},
      e ∈ (List.foldl (pushChild ids env explored node) acc acts).1 →
      e ∈ acc.1 ∨ ∃ a k, a ∈ acts ∧
        e = (node.g + 1, ids k,
          Node.mk (stepPos node.position a) (some node) (some a) (node.g + 1)) ∧
        env.is_wall (stepPos node.position a).1 (stepPos node.position a).2 = false
  | [], _, _, h => Or.inl h
  | a :: acts, acc, e, h => by
    rcases foldl_pushChild_mem_inv ids env explored node acts _ h with h' | ⟨b, k, hb, he, hwb⟩
    · rcases pushChild_fst_mem_inv ids env explored node h' with h'' | ⟨he, hwa⟩
      · exact Or.inl h''
      · exact Or.inr ⟨a, acc.2, List.mem_cons_self a acts, he, hwa⟩
    · exact Or.inr ⟨b, k, List.mem_cons_of_mem a hb, he, hwb⟩

theorem pushChild_sorted (ids : Nat → Nat) (env : Env) (explored : List (Position × Nat))
    (node : Node) {acc : List (Nat × Nat × Node) × Nat} {act : Action}
    (h : acc.1.Pairwise entryLE) :
    (pushChild ids env explored node acc act).1.Pairwise entryLE := by
  rw [pushChild_eq]
  by_cases hw : env.is_wall (stepPos node.position act).1 (stepPos node.position act).2 = true
  · rw [if_pos hw]
    exact h
  · rw [if_neg hw]
    by_cases hp : shouldPush explored (stepPos node.position act) (node.g + 1) = true
    · rw [if_pos hp]
      exact heapPush_sorted h
    · rw [if_neg hp]
      exact h

theorem foldl_pushChild_sorted (ids : Nat → Nat) (env : Env)
    (explored : List (Position × Nat)) (node : Node) :
    ∀ (acts : List Action) (acc : List (Nat × Nat × Node) × Nat),
      acc.1.Pairwise entryLE →
      (List.foldl (pushChild ids env explored node) acc acts).1.Pairwise entryLE
  | [], _, h => h
  | _ :: acts, acc, h =>
    foldl_pushChild_sorted ids env explored node acts _
      (pushChild_sorted ids env explored node h)

theorem pushChild_length (ids : Nat → Nat) (env : Env) (explored : List (Position × Nat))
    (node : Node) (acc : List (Nat × Nat × Node) × Nat) (act : Action) :
    (pushChild ids env explored node acc act).1.length ≤ acc.1.length + 1 := by
  rw [pushChild_eq]
  by_cases hw : env.is_wall (stepPos node.position act).1 (stepPos node.position act).2 = true
  · rw [if_pos hw]
    exact Nat.le_succ _
  · rw [if_neg hw]
    by_cases hp : shouldPush explored (stepPos node.position act) (node.g + 1) = true
    · rw [if_pos hp]
      exact Nat.le_of_eq (heapPush_length _ _)
    · rw [if_neg hp]
      exact Nat.le_succ _

theorem foldl_pushChild_length (ids : Nat → Nat) (env : Env)
    (explored : List (Position × Nat)) (node : Node) :
    ∀ (acts : List Action) (acc : List (Nat × Nat × Node) × Nat),
      (List.foldl (pushChild ids env explored node) acc acts).1.length ≤
        acc.1.length + acts.length
  | [], _ => Nat.le_refl _
  | a :: acts, acc => by
    have h1 := foldl_pushChild_length ids env explored node acts
      (pushChild ids env explored node acc a)
    have h2 := pushChild_length ids env explored node acc a
    calc (List.foldl (pushChild ids env explored node)
            (pushChild ids env explored node acc a) acts).1.length
        ≤ (pushChild ids env explored node acc a).1.length + acts.length := h1
      _ ≤ acc.1.length + 1 + acts.length := Nat.add_le_add_right h2 _
      _ = acc.1.length + (a :: acts).length := by simp [Nat.add_assoc, Nat.add_comm 1]

theorem foldl_pushChild_covers (ids : Nat → Nat) (env : Env)
    (explored : List (Position × Nat)) (node : Node) :
    ∀ (acts : List Action) (acc : List (Nat × Nat × Node) × Nat) (a : Action), a ∈ acts →
      env.is_wall (stepPos node.position a).1 (stepPos node.position a).2 = false →
      (∃ gw, lookupPos explored (stepPos node.position a) = some gw) ∨
        ∃ e ∈ (List.foldl (pushChild ids env explored node) acc acts).1,
          (e.2.2).position = stepPos node.position a ∧ e.1 ≤ node.g + 1
  | [], _, a, ha, _ => absurd ha (List.not_mem_nil a)
  | b :: acts, acc, a, ha, hw => by
    rcases List.mem_cons.mp ha with rfl | ha'
    · by_cases hp : shouldPush explored (stepPos node.position a) (node.g + 1) = true
      · refine Or.inr ⟨(node.g + 1, ids acc.2,
          Node.mk (stepPos node.position a) (some node) (some a) (node.g + 1)), ?_, ?_, ?_⟩
        · apply foldl_pushChild_mem_mono ids env explored node acts
          rw [pushChild_eq, if_neg (by rw [hw]; exact Bool.false_ne_true), if_pos hp]
          exact heapPush_mem.mpr (Or.inr rfl)
        · rfl
        · exact Nat.le_refl _
      · rcases hq : lookupPos explored (stepPos node.position a) with - | gw
        · exact absurd (by simp [shouldPush, hq]) hp
        · exact Or.inl ⟨gw, rfl⟩
    · exact foldl_pushChild_covers ids env explored node acts _ a ha' hw

end ucs

/-! ### Well-formed A* nodes -/

namespace astar

theorem Node.path_ne_nilA : ∀ n : Node, n.path ≠ []
  | .mk _ none _ _ _ => by simp [Node.path]
  | .mk _ (some par) _ _ _ => by simp [Node.path]

theorem Node.path_getLastA : ∀ n : Node, n.path.getLast? = some n.position
  | .mk p none _ _ _ => by simp [Node.path, Node.position]
  | .mk p (some par) _ _ _ => by
    simp [Node.path, Node.position, List.getLast?_concat]

theorem Node.path_headA (env : Env) (start : Position)
    (heuristic : Position → Position → Nat) (goal : Position) :
    ∀ n : Node, n.wf env start heuristic goal → n.path.head? = some start
  | .mk p none _ g h, hw => by
    simp [Node.path, hw.1]
  | .mk p (some par) _ g h, hw => by
    have ih := Node.path_headA env start heuristic goal par hw.1
    cases hp : par.path with
    | nil => exact absurd hp (Node.path_ne_nilA par)
    | cons x xs =>
      rw [hp] at ih
      simpa [Node.path, hp] using ih

theorem Node.wf_lengthA (env : Env) (start : Position)
    (heuristic : Position → Position → Nat) (goal : Position) :
    ∀ n : Node, n.wf env start heuristic goal → n.path.length = n.g + 1
  | .mk p none _ g h, hw => by simp [Node.path, Node.g, hw.2.1]
  | .mk p (some par) _ g h, hw => by
    have ih := Node.wf_lengthA env start heuristic goal par hw.1
    simp [Node.path, Node.g, ih, hw.2.2.2.1]

theorem Node.wf_chainA (env : Env) (start : Position)
    (heuristic : Position → Position → Nat) (goal : Position) :
    ∀ n : Node, n.wf env start heuristic goal → chainB n.path = true
  | .mk p none _ g h, _ => by simp [Node.path, chainB]
  | .mk p (some par) _ g h, hw => by
    have ih := Node.wf_chainA env start heuristic goal par hw.1
    show chainB (par.path ++ [p]) = true
    refine (chainB_append_singleton _ _).mpr ⟨ih, ?_⟩
    intro a ha
    rw [Node.path_getLastA par] at ha
    obtain ⟨act, hact⟩ := hw.2.1
    cases ha
    rw [hact]
    exact isStepB_of_action _ _

theorem Node.wf_tailNoWallA (env : Env) (start : Position)
    (heuristic : Position → Position → Nat) (goal : Position) :
    ∀ n : Node, n.wf env start heuristic goal → tailNoWall env n.path = true
  | .mk p none _ g h, _ => by simp [Node.path, tailNoWall]
  | .mk p (some par) _ g h, hw => by
    have ih := Node.wf_tailNoWallA env start heuristic goal par hw.1
    show tailNoWall env (par.path ++ [p]) = true
    exact (tailNoWall_append_singleton (Node.path_ne_nilA par)).mpr ⟨ih, hw.2.2.1⟩

theorem Node.wf_reachA (env : Env) (start : Position)
    (heuristic : Position → Position → Nat) (goal : Position) :
    ∀ n : Node, n.wf env start heuristic goal → Reach env start n.position n.g
  | .mk p none _ g h, hw => by
    obtain ⟨rfl, rfl, -⟩ := hw
    exact Reach.refl
  | .mk p (some par) _ g h, hw => by
    have ih := Node.wf_reachA env start heuristic goal par hw.1
    obtain ⟨act, hact⟩ := hw.2.1
    show Reach env start p g
    rw [hact, hw.2.2.2.1]
    exact Reach.step act ih (by rw [← hact]; exact hw.2.2.1)

theorem Node.wf_f {env : Env} {start : Position} {heuristic : Position → Position → Nat}
    {goal : Position} {n : Node} (hw : n.wf env start heuristic goal) :
    n.f = n.g + heuristic n.position goal := by
  cases n with
  | mk p par a g h =>
    cases par with
    | none => simp [Node.f, Node.g, Node.h, Node.position, hw.2.2]
    | some q => simp [Node.f, Node.g, Node.h, Node.position, hw.2.2.2.2]

theorem Node.wf_pathOkA {env : Env} {start goal : Position}
    {heuristic : Position → Position → Nat} {n : Node}
    (h : n.wf env start heuristic goal) (hg : n.position = goal) :
    pathOk env start goal n.path = true := by
  simp only [pathOk, Bool.and_eq_true, decide_eq_true_eq]
  exact ⟨⟨⟨Node.path_headA env start heuristic goal n h, hg ▸ Node.path_getLastA n⟩,
    Node.wf_chainA env start heuristic goal n h⟩,
    Node.wf_tailNoWallA env start heuristic goal n h⟩

theorem Node.wf_pathObeysA {env : Env} {start goal : Position}
    {heuristic : Position → Position → Nat} {n : Node}
    (h : n.wf env start heuristic goal) (hg : n.position = goal)
    (hs : env.is_wall start.1 start.2 = false) :
    pathObeys env start goal n.path = true := by
  simp only [pathObeys, Bool.and_eq_true, decide_eq_true_eq]
  exact ⟨⟨⟨Node.path_headA env start heuristic goal n h, hg ▸ Node.path_getLastA n⟩,
    Node.wf_chainA env start heuristic goal n h⟩,
    all_nonwall_of_head_tail (Node.path_headA env start heuristic goal n h)
      (Node.wf_tailNoWallA env start heuristic goal n h) hs⟩

end astar

theorem action_mem_cardinalActions (a : Action) : a ∈ cardinalActions := by
  cases a <;> simp [cardinalActions]

theorem cardinalActions_length : cardinalActions.length = 4 := rfl

/-! ### The UCS loop invariant -/

namespace ucs

theorem inv_init {ids : Nat → Nat} {start goal : Position} {env : Env} {max : Nat} :
    Inv start goal env max (init ids start) := by
  refine ⟨?_, ?_, ?_, ?_, ?_, ?_, ?_, ?_, ?_, ?_, ?_⟩
  · intro e he
    have : e = (0, ids 0, Node.mk start none none 0) := by simpa [init, heapPush] using he
    subst this
    exact ⟨⟨rfl, rfl⟩, rfl⟩
  · simp [init, heapPush]
  · simp [init]
  · simp [init]
  · simp [init]
  · simp [init]
  · simp [init]
  · refine Or.inr ⟨(0, ids 0, Node.mk start none none 0), ?_, rfl, rfl⟩
    simp [init, heapPush]
  · simp [init, lookupPos]
  · rfl
  · exact Nat.zero_le _

/-- Key lemma: while a reachable cell is unexplored, the frontier is
nonempty and its minimum cost is at most any reach cost of that cell. -/
theorem frontier_min {start goal : Position} {env : Env} {max : Nat} {s : State}
    (hInv : Inv start goal env max s) :
    ∀ {p : Position} {m : Nat}, Reach env start p m →
      lookupPos s.explored p = none →
      ∃ c i n rest, s.frontier = (c, i, n) :: rest ∧ c ≤ m := by
  intro p m hr
  induction hr with
  | refl =>
    intro hnone
    rcases hInv.start_cov with hs | ⟨e, he, hpos, hc⟩
    · rw [hs] at hnone
      exact absurd hnone (by simp)
    · cases hf : s.frontier with
      | nil =>
        rw [hf] at he
        exact absurd he (List.not_mem_nil e)
      | cons x rest =>
        obtain ⟨c, i, n⟩ := x
        have hle : c ≤ e.1 := sorted_head_le (hf ▸ hInv.sorted) (hf ▸ he)
        exact ⟨c, i, n, rest, rfl, by omega⟩
  | step a hr hw ih =>
    intro hnone
    rename_i q k
    cases hu : lookupPos s.explored q with
    | some gu =>
      have hmem := lookupPos_some_mem hu
      have hdist := hInv.trace_dist _ hmem
      have hgu : gu ≤ k := hdist.2 k hr
      rcases hInv.covered _ hmem a hw with ⟨gw, hgw⟩ | ⟨e, he, hpos, hle⟩
      · rw [hgw] at hnone
        exact absurd hnone (by simp)
      · cases hf : s.frontier with
        | nil =>
          rw [hf] at he
          exact absurd he (List.not_mem_nil e)
        | cons x rest =>
          obtain ⟨c, i, n⟩ := x
          have hcle : c ≤ e.1 := sorted_head_le (hf ▸ hInv.sorted) (hf ▸ he)
          exact ⟨c, i, n, rest, rfl, by omega⟩
    | none =>
      obtain ⟨c, i, n, rest, hf, hc⟩ := ih hu
      exact ⟨c, i, n, rest, hf, Nat.le_succ_of_le hc⟩

theorem trace_le_head {s : State} {start goal : Position} {env : Env} {max : Nat}
    (hInv : Inv start goal env max s) {pr : Position × Nat} (hpr : pr ∈ s.explored)
    {pr0 : Position × Nat} (h0 : s.explored.head? = some pr0) : pr.2 ≤ pr0.2 := by
  cases hex : s.explored with
  | nil =>
    rw [hex] at hpr
    exact absurd hpr (List.not_mem_nil pr)
  | cons x xs =>
    rw [hex] at h0 hpr
    have hx : x = pr0 := by simpa using h0
    subst hx
    rcases List.mem_cons.mp hpr with rfl | hpr'
    · exact Nat.le_refl _
    · have := hInv.trace_mono
      rw [hex] at this
      exact (List.pairwise_cons.mp this).1 pr hpr'

theorem lookupPos_cons_self (p : Position) (g : Nat) (l : List (Position × Nat)) :
    lookupPos ((p, g) :: l) p = some g := by
  simp [lookupPos]

theorem lookupPos_cons_ne {q p : Position} (h : q ≠ p) (g : Nat)
    (l : List (Position × Nat)) : lookupPos ((q, g) :: l) p = lookupPos l p := by
  simp [lookupPos, h]

theorem frontier_min_head {start goal : Position} {env : Env} {max : Nat} {s : State}
    (hInv : Inv start goal env max s) {p : Position} {m : Nat}
    (hr : Reach env start p m) (hnone : lookupPos s.explored p = none)
    {c : Nat} {i : Nat} {n : Node} {rest : List (Nat × Nat × Node)}
    (hf : s.frontier = (c, i, n) :: rest) : c ≤ m := by
  obtain ⟨c0, i0, n0, r0, hf0, hle⟩ := frontier_min hInv hr hnone
  rw [hf] at hf0
  injection hf0 with h1 _
  have hc : c = c0 := congrArg Prod.fst h1
  omega

theorem inv_step_next {ids : Nat → Nat} {start goal : Position} {env : Env} {max : Nat}
    {s s' : State} (hInv : Inv start goal env max s)
    (h : step ids goal env max s = .next s') : Inv start goal env max s' := by
  obtain ⟨f, ex, pk, ne, ni⟩ := s
  cases f with
  | nil => simp [step] at h
  | cons ehead rest =>
    obtain ⟨c, i, node⟩ := ehead
    have hheadmem : (c, i, node) ∈ (c, i, node) :: rest := List.mem_cons_self _ _
    have hwfc : node.wf env start ∧ c = node.g := hInv.wf_frontier _ hheadmem
    have htail : rest.Pairwise entryLE := (List.pairwise_cons.mp hInv.sorted).2
    by_cases hg : node.position = goal
    · simp only [step, if_pos hg] at h
      exact StepRes.noConfusion h
    · simp only [step, if_neg hg] at h
      by_cases hst : staleCheck ex node = true
      · rw [if_pos hst] at h
        simp only [StepRes.next.injEq] at h
        subst h
        obtain ⟨c', hc', hcg⟩ := staleCheck_true hst
        refine ⟨?_, htail, hInv.trace_dist, hInv.trace_nodup, hInv.trace_mono, ?_, ?_, ?_,
          hInv.goal_not, hInv.count, hInv.ne_le⟩
        · intro e he
          exact hInv.wf_frontier e (List.mem_cons_of_mem _ he)
        · intro e he pr hpr
          exact hInv.frontier_ge e (List.mem_cons_of_mem _ he) pr hpr
        · intro pr hpr a hwall
          rcases hInv.covered pr hpr a hwall with h1 | ⟨e, he, hpos, hle⟩
          · exact Or.inl h1
          · rcases List.mem_cons.mp he with rfl | he'
            · have hpos' : node.position = stepPos pr.1 a := hpos
              exact Or.inl ⟨c', hpos' ▸ hc'⟩
            · exact Or.inr ⟨e, he', hpos, hle⟩
        · rcases hInv.start_cov with h1 | ⟨e, he, hpos, hc0⟩
          · exact Or.inl h1
          · rcases List.mem_cons.mp he with rfl | he'
            · have hpos' : node.position = start := hpos
              have hc0' : c = 0 := hc0
              have hc'0 : c' = 0 := by omega
              refine Or.inl ?_
              rw [← hpos', hc', hc'0]
            · exact Or.inr ⟨e, he', hpos, hc0⟩
      · have hstale : staleCheck ex node = false := Bool.eq_false_iff.mpr hst
        rw [if_neg hst] at h
        by_cases hcap : max < ne + 1
        · rw [if_pos hcap] at h
          exact StepRes.noConfusion h
        · rw [if_neg hcap] at h
          simp only [StepRes.next.injEq] at h
          subst h
          have hwf : node.wf env start := hwfc.1
          have hreach := Node.wf_reach env start node hwf
          have hlook : lookupPos ex node.position = none := by
            rcases staleCheck_false hstale with h0 | ⟨c', hc', hlt⟩
            · exact h0
            · have hdist := hInv.trace_dist _ (lookupPos_some_mem hc')
              have := hdist.2 _ hreach
              omega
          have hdistn : IsDist env start node.position node.g :=
            ⟨hreach, fun m hm => hwfc.2 ▸ frontier_min_head hInv hm hlook rfl⟩
          have hnotmem : node.position ∉ ex.map Prod.fst := lookupPos_eq_none_iff.mp hlook
          have hexle : ∀ pr ∈ ex, pr.2 ≤ node.g := by
            intro pr hpr
            cases hex : ex with
            | nil =>
              rw [hex] at hpr
              exact absurd hpr (List.not_mem_nil pr)
            | cons x xs =>
              have hx2 : x.2 ≤ c :=
                hInv.frontier_ge (c, i, node) hheadmem x (by simp [hex])
              have hprx : pr.2 ≤ x.2 := trace_le_head hInv hpr (by simp [hex])
              omega
          refine ⟨?_, ?_, ?_, ?_, ?_, ?_, ?_, ?_, ?_, ?_, ?_⟩
          · intro e he
            rcases foldl_pushChild_mem_inv ids env _ node cardinalActions (rest, ni) he with
              hrest | ⟨a, k, -, rfl, hwa⟩
            · exact hInv.wf_frontier e (List.mem_cons_of_mem _ hrest)
            · exact ⟨⟨hwf, ⟨a, rfl⟩, hwa, rfl⟩, rfl⟩
          · exact foldl_pushChild_sorted ids env _ node cardinalActions (rest, ni) htail
          · intro pr hpr
            rcases List.mem_cons.mp hpr with rfl | hpr'
            · exact hdistn
            · exact hInv.trace_dist pr hpr'
          · simpa [List.nodup_cons, hnotmem] using hInv.trace_nodup
          · exact List.pairwise_cons.mpr ⟨hexle, hInv.trace_mono⟩
          · intro e he pr hpr
            have hpr' : (node.position, node.g) = pr := by simpa using hpr
            subst hpr'
            rcases foldl_pushChild_mem_inv ids env _ node cardinalActions (rest, ni) he with
              hrest | ⟨a, k, -, rfl, hwa⟩
            · have : c ≤ e.1 := sorted_head_le hInv.sorted (List.mem_cons_of_mem _ hrest)
              show node.g ≤ e.1
              omega
            · simp
          · intro pr hpr a hwall
            rcases List.mem_cons.mp hpr with rfl | hpr'
            · exact foldl_pushChild_covers ids env _ node cardinalActions (rest, ni) a
                (action_mem_cardinalActions a) hwall
            · rcases hInv.covered pr hpr' a hwall with ⟨gw, hgw⟩ | ⟨e, he, hpos, hle⟩
              · exact Or.inl (lookupPos_isSome_of_some _ hgw)
              · rcases List.mem_cons.mp he with rfl | he'
                · have hpos' : node.position = stepPos pr.1 a := hpos
                  exact Or.inl ⟨node.g, hpos' ▸ lookupPos_cons_self _ _ _⟩
                · exact Or.inr ⟨e, foldl_pushChild_mem_mono ids env _ node _ _ he', hpos, hle⟩
          · rcases hInv.start_cov with h1 | ⟨e, he, hpos, hc0⟩
            · refine Or.inl ?_
              have hne : node.position ≠ start := by
                intro heq
                rw [heq, h1] at hlook
                exact Option.noConfusion hlook
              rw [lookupPos_cons_ne hne]
              exact h1
            · rcases List.mem_cons.mp he with rfl | he'
              · have hpos' : node.position = start := hpos
                have hc0' : c = 0 := hc0
                refine Or.inl ?_
                rw [← hpos', lookupPos_cons_self]
                have : node.g = 0 := by omega
                rw [this]
              · exact Or.inr ⟨e, foldl_pushChild_mem_mono ids env _ node _ _ he', hpos, hc0⟩
          · rw [lookupPos_cons_ne (fun heq => hg heq)]
            exact hInv.goal_not
          · have : ne = ex.length := hInv.count
            simp [this]
          · exact Nat.not_lt.mp hcap

theorem step_done_shapes {ids : Nat → Nat} {goal : Position} {env : Env} {max : Nat}
    {s : State} {r : SearchResult} (h : step ids goal env max s = .done r) :
    (s.frontier = [] ∧ r = (none, ⟨s.nodes_expanded, none, s.frontier_peak⟩)) ∨
    (∃ c i node rest, s.frontier = (c, i, node) :: rest ∧ node.position = goal ∧
      r = (some node.path, ⟨s.nodes_expanded, some node.path.length, s.frontier_peak⟩)) ∨
    (∃ c i node rest, s.frontier = (c, i, node) :: rest ∧ node.position ≠ goal ∧
      staleCheck s.explored node = false ∧ max < s.nodes_expanded + 1 ∧
      r = (none, ⟨s.nodes_expanded + 1, none, s.frontier_peak⟩)) := by
  obtain ⟨f, ex, pk, ne, ni⟩ := s
  cases f with
  | nil =>
    simp only [step, StepRes.done.injEq] at h
    exact Or.inl ⟨rfl, h.symm⟩
  | cons ehead rest =>
    obtain ⟨c, i, node⟩ := ehead
    by_cases hg : node.position = goal
    · simp only [step, if_pos hg, StepRes.done.injEq] at h
      exact Or.inr (Or.inl ⟨c, i, node, rest, rfl, hg, h.symm⟩)
    · simp only [step, if_neg hg] at h
      by_cases hst : staleCheck ex node = true
      · rw [if_pos hst] at h
        exact StepRes.noConfusion h
      · have hstale : staleCheck ex node = false := Bool.eq_false_iff.mpr hst
        rw [if_neg hst] at h
        by_cases hcap : max < ne + 1
        · rw [if_pos hcap] at h
          simp only [StepRes.done.injEq] at h
          exact Or.inr (Or.inr ⟨c, i, node, rest, rfl, hg, hstale, hcap, h.symm⟩)
        · rw [if_neg hcap] at h
          exact StepRes.noConfusion h

theorem step_next_shapes {ids : Nat → Nat} {goal : Position} {env : Env} {max : Nat}
    {s s' : State} (h : step ids goal env max s = .next s') :
    ∃ c i node rest, s.frontier = (c, i, node) :: rest ∧
      ((s'.frontier = rest ∧ s'.nodes_expanded = s.nodes_expanded) ∨
       (s'.frontier.length ≤ rest.length + 4 ∧
         s'.nodes_expanded = s.nodes_expanded + 1 ∧ s'.nodes_expanded ≤ max)) := by
  obtain ⟨f, ex, pk, ne, ni⟩ := s
  cases f with
  | nil =>
    simp only [step] at h
    exact StepRes.noConfusion h
  | cons ehead rest =>
    obtain ⟨c, i, node⟩ := ehead
    by_cases hg : node.position = goal
    · simp only [step, if_pos hg] at h
      exact StepRes.noConfusion h
    · simp only [step, if_neg hg] at h
      by_cases hst : staleCheck ex node = true
      · rw [if_pos hst] at h
        simp only [StepRes.next.injEq] at h
        subst h
        exact ⟨c, i, node, rest, rfl, Or.inl ⟨rfl, rfl⟩⟩
      · rw [if_neg hst] at h
        by_cases hcap : max < ne + 1
        · rw [if_pos hcap] at h
          exact StepRes.noConfusion h
        · rw [if_neg hcap] at h
          simp only [StepRes.next.injEq] at h
          subst h
          refine ⟨c, i, node, rest, rfl, Or.inr ⟨?_, rfl, Nat.not_lt.mp hcap⟩⟩
          have := foldl_pushChild_length ids env ((node.position, node.g) :: ex) node
            cardinalActions (rest, ni)
          simpa [cardinalActions_length] using this

theorem loop_success {ids : Nat → Nat} {start goal : Position} {env : Env} {max : Nat} :
    ∀ {fuel : Nat} {s : State} {p : List Position} {st : Stats},
      Inv start goal env max s →
      loop ids goal env max fuel s = some (some p, st) →
      ∃ s2 c i node rest, Inv start goal env max s2 ∧
        s2.frontier = (c, i, node) :: rest ∧ node.position = goal ∧
        node.wf env start ∧ c = node.g ∧ IsDist env start goal node.g ∧
        p = node.path ∧
        st = ⟨s2.nodes_expanded, some p.length, s2.frontier_peak⟩ := by
  intro fuel
  induction fuel with
  | zero =>
    intro s p st _ h
    simp [loop] at h
  | succ n ih =>
    intro s p st hInv h
    rw [loop] at h
    cases hstep : step ids goal env max s with
    | done r =>
      rw [hstep] at h
      simp only [Option.some.injEq] at h
      subst h
      rcases step_done_shapes hstep with ⟨-, hr⟩ | ⟨c, i, node, rest, hf, hg, hr⟩ |
        ⟨c, i, node, rest, -, -, -, -, hr⟩
      · simp at hr
      · simp only [Prod.mk.injEq, Option.some.injEq] at hr
        obtain ⟨hp, hst⟩ := hr
        have hwfc := hInv.wf_frontier (c, i, node) (hf ▸ List.mem_cons_self _ _)
        have hwf : node.wf env start := hwfc.1
        have hreach : Reach env start goal node.g := hg ▸ Node.wf_reach env start node hwf
        have hdist : IsDist env start goal node.g := by
          refine ⟨hreach, fun m hm => ?_⟩
          have hcm := frontier_min_head hInv hm hInv.goal_not hf
          have hcg : c = node.g := hwfc.2
          omega
        refine ⟨s, c, i, node, rest, hInv, hf, hg, hwf, hwfc.2, hdist, hp, ?_⟩
        rw [hst, hp]
      · simp at hr
    | next s' =>
      rw [hstep] at h
      exact ih (inv_step_next hInv hstep) h

theorem loop_none {ids : Nat → Nat} {start goal : Position} {env : Env} {max : Nat} :
    ∀ {fuel : Nat} {s : State} {st : Stats},
      Inv start goal env max s →
      loop ids goal env max fuel s = some (none, st) →
      ∃ s2, Inv start goal env max s2 ∧
        ((s2.frontier = [] ∧ st = ⟨s2.nodes_expanded, none, s2.frontier_peak⟩) ∨
         (∃ c i node rest, s2.frontier = (c, i, node) :: rest ∧ node.position ≠ goal ∧
           staleCheck s2.explored node = false ∧ max < s2.nodes_expanded + 1 ∧
           st = ⟨s2.nodes_expanded + 1, none, s2.frontier_peak⟩)) := by
  intro fuel
  induction fuel with
  | zero =>
    intro s st _ h
    simp [loop] at h
  | succ n ih =>
    intro s st hInv h
    rw [loop] at h
    cases hstep : step ids goal env max s with
    | done r =>
      rw [hstep] at h
      simp only [Option.some.injEq] at h
      subst h
      rcases step_done_shapes hstep with ⟨hf, hr⟩ | ⟨c, i, node, rest, hf, hg, hr⟩ |
        ⟨c, i, node, rest, hf, hg, hstale, hcap, hr⟩
      · simp only [Prod.mk.injEq] at hr
        exact ⟨s, hInv, Or.inl ⟨hf, hr.2⟩⟩
      · simp at hr
      · simp only [Prod.mk.injEq] at hr
        exact ⟨s, hInv, Or.inr ⟨c, i, node, rest, hf, hg, hstale, hcap, hr.2⟩⟩
    | next s' =>
      rw [hstep] at h
      exact ih (inv_step_next hInv hstep) h

theorem loop_isSome {ids : Nat → Nat} {goal : Position} {env : Env} {max : Nat} :
    ∀ (fuel : Nat) (s : State), s.nodes_expanded ≤ max → loopMeasure max s < fuel →
      (loop ids goal env max fuel s).isSome = true := by
  intro fuel
  induction fuel with
  | zero =>
    intro s _ hm
    exact absurd hm (Nat.not_lt_zero _)
  | succ n ih =>
    intro s hne hm
    rw [loop]
    cases hstep : step ids goal env max s with
    | done r => rfl
    | next s' =>
      obtain ⟨c, i, node, rest, hf, hsh⟩ := step_next_shapes hstep
      have hlen : s.frontier.length = rest.length + 1 := by rw [hf]; rfl
      rcases hsh with ⟨hf', hne'⟩ | ⟨hlen', hne', hle'⟩
      · apply ih
        · rw [hne']
          exact hne
        · have : s'.frontier.length = rest.length := by rw [hf']
          unfold loopMeasure at hm ⊢
          omega
      · apply ih
        · exact hle'
        · unfold loopMeasure at hm ⊢
          omega

theorem inv_states {ids : Nat → Nat} {start goal : Position} {env : Env} {max : Nat} :
    ∀ (k : Nat) {s s' : State}, Inv start goal env max s →
      states ids goal env max s k = some s' → Inv start goal env max s'
  | 0, s, s', hInv, h => by
    simp only [states, Option.some.injEq] at h
    exact h ▸ hInv
  | k + 1, s, s', hInv, h => by
    rw [states] at h
    cases hk : states ids goal env max s k with
    | none => rw [hk] at h; exact Option.noConfusion h
    | some s1 =>
      rw [hk] at h
      have h' : (match step ids goal env max s1 with
          | StepRes.done _ => none
          | StepRes.next s'' => some s'') = some s' := h
      cases hstep : step ids goal env max s1 with
      | done r => rw [hstep] at h'; exact Option.noConfusion h'
      | next s2 =>
        rw [hstep] at h'
        simp only [Option.some.injEq] at h'
        exact h' ▸ inv_step_next (inv_states k hInv hk) hstep

end ucs

/-! ### The A* loop invariant -/

namespace astar

theorem pushChild_eqA (ids : Nat → Nat) (env : Env)
    (heuristic : Position → Position → Nat) (goal : Position) (explored : List Position)
    (node : Node) (acc : List (Nat × Nat × Node) × Nat) (act : Action) :
    pushChild ids env heuristic goal explored node acc act =
      if env.is_wall (stepPos node.position act).1 (stepPos node.position act).2 then acc
      else if memPos explored (stepPos node.position act) then acc
      else
        (heapPush acc.1
          ((Node.mk (stepPos node.position act) (some node) (some act) (node.g + 1)
              (heuristic (stepPos node.position act) goal)).f, ids acc.2,
            Node.mk (stepPos node.position act) (some node) (some act) (node.g + 1)
              (heuristic (stepPos node.position act) goal)),
          acc.2 + 1) := rfl

theorem pushChild_fst_memA (ids : Nat → Nat) (env : Env)
    (heuristic : Position → Position → Nat) (goal : Position) (explored : List Position)
    (node : Node) {acc : List (Nat × Nat × Node) × Nat} {act : Action}
    {e : Nat × Nat × Node} (h : e ∈ acc.1) :
    e ∈ (pushChild ids env heuristic goal explored node acc act).1 := by
  rw [pushChild_eqA]
  by_cases hw : env.is_wall (stepPos node.position act).1 (stepPos node.position act).2 = true
  · rw [if_pos hw]
    exact h
  · rw [if_neg hw]
    by_cases hm : memPos explored (stepPos node.position act) = true
    · rw [if_pos hm]
      exact h
    · rw [if_neg hm]
      exact heapPush_mem.mpr (Or.inl h)

theorem foldl_pushChild_mem_monoA (ids : Nat → Nat) (env : Env)
    (heuristic : Position → Position → Nat) (goal : Position) (explored : List Position)
    (node : Node) :
    ∀ (acts : List Action) (acc : List (Nat × Nat × Node) × Nat) {e : Nat × Nat × Node},
      e ∈ acc.1 →
      e ∈ (List.foldl (pushChild ids env heuristic goal explored node) acc acts).1
  | [], _, _, h => h
  | _ :: acts, acc, _, h =>
    foldl_pushChild_mem_monoA ids env heuristic goal explored node acts _
      (pushChild_fst_memA ids env heuristic goal explored node h)

theorem pushChild_fst_mem_invA (ids : Nat → Nat) (env : Env)
    (heuristic : Position → Position → Nat) (goal : Position) (explored : List Position)
    (node : Node) {acc : List (Nat × Nat × Node) × Nat} {act : Action}
    {e : Nat × Nat × Node}
    (h : e ∈ (pushChild ids env heuristic goal explored node acc act).1) :
    e ∈ acc.1 ∨
      (e = ((node.g + 1) + heuristic (stepPos node.position act) goal, ids acc.2,
          Node.mk (stepPos node.position act) (some node) (some act) (node.g + 1)
            (heuristic (stepPos node.position act) goal)) ∧
        env.is_wall (stepPos node.position act).1 (stepPos node.position act).2 = false) := by
  rw [pushChild_eqA] at h
  by_cases hw : env.is_wall (stepPos node.position act).1 (stepPos node.position act).2 = true
  · rw [if_pos hw] at h
    exact Or.inl h
  · rw [if_neg hw] at h
    by_cases hm : memPos explored (stepPos node.position act) = true
    · rw [if_pos hm] at h
      exact Or.inl h
    · rw [if_neg hm] at h
      rcases heapPush_mem.mp h with h | h
      · exact Or.inl h
      · exact Or.inr ⟨h, Bool.eq_false_iff.mpr hw⟩

theorem foldl_pushChild_mem_invA (ids : Nat → Nat) (env : Env)
    (heuristic : Position → Position → Nat) (goal : Position) (explored : List Position)
    (node : Node) :
    ∀ (acts : List Action) (acc : List (Nat × Nat × Node) × Nat) {e : Nat × Nat × Node},
      e ∈ (List.foldl (pushChild ids env heuristic goal explored node) acc acts).1 →
      e ∈ acc.1 ∨ ∃ a k, a ∈ acts ∧
        e = ((node.g + 1) + heuristic (stepPos node.position a) goal, ids k,
          Node.mk (stepPos node.position a) (some node) (some a) (node.g + 1)
            (heuristic (stepPos node.position a) goal)) ∧
        env.is_wall (stepPos node.position a).1 (stepPos node.position a).2 = false
  | [], _, _, h => Or.inl h
  | a :: acts, acc, e, h => by
    rcases foldl_pushChild_mem_invA ids env heuristic goal explored node acts _ h with
      h' | ⟨b, k, hb, he, hwb⟩
    · rcases pushChild_fst_mem_invA ids env heuristic goal explored node h' with
        h'' | ⟨he, hwa⟩
      · exact Or.inl h''
      · exact Or.inr ⟨a, acc.2, List.mem_cons_self a acts, he, hwa⟩
    · exact Or.inr ⟨b, k, List.mem_cons_of_mem a hb, he, hwb⟩

theorem pushChild_sortedA (ids : Nat → Nat) (env : Env)
    (heuristic : Position → Position → Nat) (goal : Position) (explored : List Position)
    (node : Node) {acc : List (Nat × Nat × Node) × Nat} {act : Action}
    (h : acc.1.Pairwise entryLE) :
    (pushChild ids env heuristic goal explored node acc act).1.Pairwise entryLE := by
  rw [pushChild_eqA]
  by_cases hw : env.is_wall (stepPos node.position act).1 (stepPos node.position act).2 = true
  · rw [if_pos hw]
    exact h
  · rw [if_neg hw]
    by_cases hm : memPos explored (stepPos node.position act) = true
    · rw [if_pos hm]
      exact h
    · rw [if_neg hm]
      exact heapPush_sorted h

theorem foldl_pushChild_sortedA (ids : Nat → Nat) (env : Env)
    (heuristic : Position → Position → Nat) (goal : Position) (explored : List Position)
    (node : Node) :
    ∀ (acts : List Action) (acc : List (Nat × Nat × Node) × Nat),
      acc.1.Pairwise entryLE →
      (List.foldl (pushChild ids env heuristic goal explored node) acc acts).1.Pairwise
        entryLE
  | [], _, h => h
  | _ :: acts, acc, h =>
    foldl_pushChild_sortedA ids env heuristic goal explored node acts _
      (pushChild_sortedA ids env heuristic goal explored node h)

theorem pushChild_lengthA (ids : Nat → Nat) (env : Env)
    (heuristic : Position → Position → Nat) (goal : Position) (explored : List Position)
    (node : Node) (acc : List (Nat × Nat × Node) × Nat) (act : Action) :
    (pushChild ids env heuristic goal explored node acc act).1.length ≤
      acc.1.length + 1 := by
  rw [pushChild_eqA]
  by_cases hw : env.is_wall (stepPos node.position act).1 (stepPos node.position act).2 = true
  · rw [if_pos hw]
    exact Nat.le_succ _
  · rw [if_neg hw]
    by_cases hm : memPos explored (stepPos node.position act) = true
    · rw [if_pos hm]
      exact Nat.le_succ _
    · rw [if_neg hm]
      exact Nat.le_of_eq (heapPush_length _ _)

theorem foldl_pushChild_lengthA (ids : Nat → Nat) (env : Env)
    (heuristic : Position → Position → Nat) (goal : Position) (explored : List Position)
    (node : Node) :
    ∀ (acts : List Action) (acc : List (Nat × Nat × Node) × Nat),
      (List.foldl (pushChild ids env heuristic goal explored node) acc acts).1.length ≤
        acc.1.length + acts.length
  | [], _ => Nat.le_refl _
  | a :: acts, acc => by
    have h1 := foldl_pushChild_lengthA ids env heuristic goal explored node acts
      (pushChild ids env heuristic goal explored node acc a)
    have h2 := pushChild_lengthA ids env heuristic goal explored node acc a
    calc (List.foldl (pushChild ids env heuristic goal explored node)
            (pushChild ids env heuristic goal explored node acc a) acts).1.length
        ≤ (pushChild ids env heuristic goal explored node acc a).1.length + acts.length :=
          h1
      _ ≤ acc.1.length + 1 + acts.length := Nat.add_le_add_right h2 _
      _ = acc.1.length + (a :: acts).length := by simp [Nat.add_assoc, Nat.add_comm 1]

theorem foldl_pushChild_coversA (ids : Nat → Nat) (env : Env)
    (heuristic : Position → Position → Nat) (goal : Position) (explored : List Position)
    (node : Node) :
    ∀ (acts : List Action) (acc : List (Nat × Nat × Node) × Nat) (a : Action), a ∈ acts →
      env.is_wall (stepPos node.position a).1 (stepPos node.position a).2 = false →
      stepPos node.position a ∈ explored ∨
        ∃ e ∈ (List.foldl (pushChild ids env heuristic goal explored node) acc acts).1,
          (e.2.2).position = stepPos node.position a ∧ (e.2.2).g ≤ node.g + 1
  | [], _, a, ha, _ => absurd ha (List.not_mem_nil a)
  | b :: acts, acc, a, ha, hw => by
    rcases List.mem_cons.mp ha with rfl | ha'
    · by_cases hm : memPos explored (stepPos node.position a) = true
      · exact Or.inl (memPos_iff.mp hm)
      · refine Or.inr ⟨((node.g + 1) + heuristic (stepPos node.position a) goal,
          ids acc.2, Node.mk (stepPos node.position a) (some node) (some a) (node.g + 1)
            (heuristic (stepPos node.position a) goal)), ?_, rfl, Nat.le_refl _⟩
        apply foldl_pushChild_mem_monoA ids env heuristic goal explored node acts
        rw [pushChild_eqA, if_neg (by rw [hw]; exact Bool.false_ne_true), if_neg hm]
        exact heapPush_mem.mpr (Or.inr rfl)
    · exact foldl_pushChild_coversA ids env heuristic goal explored node acts _ a ha' hw

theorem inv_initA {ids : Nat → Nat} {start goal : Position} {env : Env}
    {heuristic : Position → Position → Nat} {max : Nat} :
    Inv start goal env heuristic max (init ids start goal heuristic) := by
  refine ⟨?_, ?_, ?_, ?_, ?_, ?_, ?_, ?_, ?_, ?_⟩
  · intro e he
    have : e = ((Node.mk start none none 0 (heuristic start goal)).f, ids 0,
        Node.mk start none none 0 (heuristic start goal)) := by
      simpa [init, heapPush] using he
    subst this
    exact ⟨⟨rfl, rfl, rfl⟩, rfl⟩
  · simp [init, heapPush]
  · simp [init]
  · simp [init]
  · simp [init]
  · simp [init]
  · refine Or.inr ⟨((Node.mk start none none 0 (heuristic start goal)).f, ids 0,
      Node.mk start none none 0 (heuristic start goal)), ?_, rfl, rfl⟩
    simp [init, heapPush]
  · simp [init]
  · rfl
  · exact Nat.zero_le _

theorem frontier_minA {start goal : Position} {env : Env}
    {heuristic : Position → Position → Nat} {max : Nat} {s : State}
    (hInv : Inv start goal env heuristic max s)
    (hcons : Consistent env goal heuristic) :
    ∀ {p : Position} {m : Nat}, Reach env start p m → p ∉ s.explored →
      ∃ c i n rest, s.frontier = (c, i, n) :: rest ∧ c ≤ m + heuristic p goal := by
  intro p m hr
  induction hr with
  | refl =>
    intro hnone
    rcases hInv.start_cov with hs | ⟨e, he, hpos, hg0⟩
    · exact absurd hs hnone
    · cases hf : s.frontier with
      | nil =>
        rw [hf] at he
        exact absurd he (List.not_mem_nil e)
      | cons x rest =>
        obtain ⟨c, i, n⟩ := x
        have hle : c ≤ e.1 := sorted_head_le (hf ▸ hInv.sorted) (hf ▸ he)
        have hef : e.1 = (e.2.2).f := (hInv.wf_frontier e he).2
        have hf' : (e.2.2).f = (e.2.2).g + heuristic (e.2.2).position goal :=
          Node.wf_f (hInv.wf_frontier e he).1
        rw [hpos, hg0] at hf'
        refine ⟨c, i, n, rest, rfl, ?_⟩
        omega
  | step a hr hw ih =>
    intro hnone
    rename_i q k
    by_cases hq : q ∈ s.explored
    · obtain ⟨gu, hgu⟩ := hInv.expl_dist q hq
      have hguk : gu ≤ k := hgu.2 k hr
      rcases hInv.covered q hq gu hgu a hw with hmem | ⟨e, he, hpos, hge⟩
      · exact absurd hmem hnone
      · cases hf : s.frontier with
        | nil =>
          rw [hf] at he
          exact absurd he (List.not_mem_nil e)
        | cons x rest =>
          obtain ⟨c, i, n⟩ := x
          have hle : c ≤ e.1 := sorted_head_le (hf ▸ hInv.sorted) (hf ▸ he)
          have hef : e.1 = (e.2.2).f := (hInv.wf_frontier e he).2
          have hf' : (e.2.2).f = (e.2.2).g + heuristic (e.2.2).position goal :=
            Node.wf_f (hInv.wf_frontier e he).1
          rw [hpos] at hf'
          refine ⟨c, i, n, rest, rfl, ?_⟩
          omega
    · obtain ⟨c, i, n, rest, hf, hc⟩ := ih hq
      have hcons' := hcons q a hw
      exact ⟨c, i, n, rest, hf, by omega⟩

theorem frontier_min_headA {start goal : Position} {env : Env}
    {heuristic : Position → Position → Nat} {max : Nat} {s : State}
    (hInv : Inv start goal env heuristic max s)
    (hcons : Consistent env goal heuristic) {p : Position} {m : Nat}
    (hr : Reach env start p m) (hnone : p ∉ s.explored)
    {c : Nat} {i : Nat} {n : Node} {rest : List (Nat × Nat × Node)}
    (hf : s.frontier = (c, i, n) :: rest) : c ≤ m + heuristic p goal := by
  obtain ⟨c0, i0, n0, r0, hf0, hle⟩ := frontier_minA hInv hcons hr hnone
  rw [hf] at hf0
  injection hf0 with h1 _
  have hc : c = c0 := congrArg Prod.fst h1
  omega

theorem inv_step_nextA {ids : Nat → Nat} {start goal : Position} {env : Env}
    {heuristic : Position → Position → Nat} {max : Nat} {s s' : State}
    (hInv : Inv start goal env heuristic max s)
    (hcons : Consistent env goal heuristic)
    (h : step ids goal env heuristic max s = .next s') :
    Inv start goal env heuristic max s' := by
  obtain ⟨f, ex, pk, ne, ni⟩ := s
  cases f with
  | nil =>
    simp only [step] at h
    exact StepRes.noConfusion h
  | cons ehead rest =>
    obtain ⟨c, i, node⟩ := ehead
    have hheadmem : (c, i, node) ∈ (c, i, node) :: rest := List.mem_cons_self _ _
    have hwfc := hInv.wf_frontier _ hheadmem
    have hwf : node.wf env start heuristic goal := hwfc.1
    have hcf : c = node.f := hwfc.2
    have hfval : node.f = node.g + heuristic node.position goal := Node.wf_f hwf
    have htail : rest.Pairwise entryLE := (List.pairwise_cons.mp hInv.sorted).2
    by_cases hg : node.position = goal
    · simp only [step, if_pos hg] at h
      exact StepRes.noConfusion h
    · simp only [step, if_neg hg] at h
      by_cases hst : memPos ex node.position = true
      · rw [if_pos hst] at h
        simp only [StepRes.next.injEq] at h
        subst h
        have hmem : node.position ∈ ex := memPos_iff.mp hst
        refine ⟨?_, htail, hInv.expl_dist, hInv.expl_nodup, ?_, ?_, ?_,
          hInv.goal_not, hInv.count, hInv.ne_le⟩
        · intro e he
          exact hInv.wf_frontier e (List.mem_cons_of_mem _ he)
        · intro e he u hu gu hgu
          exact hInv.expl_bound e (List.mem_cons_of_mem _ he) u hu gu hgu
        · intro u hu gu hgu a hwall
          rcases hInv.covered u hu gu hgu a hwall with h1 | ⟨e, he, hpos, hle⟩
          · exact Or.inl h1
          · rcases List.mem_cons.mp he with rfl | he'
            · have hpos' : node.position = stepPos u a := hpos
              exact Or.inl (hpos' ▸ hmem)
            · exact Or.inr ⟨e, he', hpos, hle⟩
        · rcases hInv.start_cov with h1 | ⟨e, he, hpos, hg0⟩
          · exact Or.inl h1
          · rcases List.mem_cons.mp he with rfl | he'
            · have hpos' : node.position = start := hpos
              exact Or.inl (hpos' ▸ hmem)
            · exact Or.inr ⟨e, he', hpos, hg0⟩
      · have hnotmem : node.position ∉ ex := fun hmem => hst (memPos_iff.mpr hmem)
        rw [if_neg hst] at h
        by_cases hcap : max < ne + 1
        · rw [if_pos hcap] at h
          exact StepRes.noConfusion h
        · rw [if_neg hcap] at h
          simp only [StepRes.next.injEq] at h
          subst h
          have hreach := Node.wf_reachA env start heuristic goal node hwf
          obtain ⟨d, hd⟩ := reachable_isDist ⟨node.g, hreach⟩
          have hcd : c ≤ d + heuristic node.position goal :=
            frontier_min_headA hInv hcons hd.1 hnotmem rfl
          have hgd : node.g = d := by
            have h1 : d ≤ node.g := hd.2 _ hreach
            omega
          have hdistn : IsDist env start node.position node.g := hgd ▸ hd
          refine ⟨?_, ?_, ?_, ?_, ?_, ?_, ?_, ?_, ?_, ?_⟩
          · intro e he
            rcases foldl_pushChild_mem_invA ids env heuristic goal _ node cardinalActions
              (rest, ni) he with hrest | ⟨a, k, -, rfl, hwa⟩
            · exact hInv.wf_frontier e (List.mem_cons_of_mem _ hrest)
            · exact ⟨⟨hwf, ⟨a, rfl⟩, hwa, rfl, rfl⟩, rfl⟩
          · exact foldl_pushChild_sortedA ids env heuristic goal _ node cardinalActions
              (rest, ni) htail
          · intro u hu
            rcases List.mem_cons.mp hu with rfl | hu'
            · exact ⟨node.g, hdistn⟩
            · exact hInv.expl_dist u hu'
          · exact List.nodup_cons.mpr ⟨hnotmem, hInv.expl_nodup⟩
          · intro e he u hu gu hgu
            rcases List.mem_cons.mp hu with rfl | hu'
            · have hgu' : gu = node.g := isDist_unique hgu hdistn
              subst hgu'
              rcases foldl_pushChild_mem_invA ids env heuristic goal _ node cardinalActions
                (rest, ni) he with hrest | ⟨a, k, -, rfl, hwa⟩
              · have hle : c ≤ e.1 :=
                  sorted_head_le hInv.sorted (List.mem_cons_of_mem _ hrest)
                omega
              · have hco := hcons node.position a hwa
                show node.g + heuristic node.position goal ≤
                  node.g + 1 + heuristic (stepPos node.position a) goal
                omega
            · rcases foldl_pushChild_mem_invA ids env heuristic goal _ node cardinalActions
                (rest, ni) he with hrest | ⟨a, k, -, rfl, hwa⟩
              · exact hInv.expl_bound e (List.mem_cons_of_mem _ hrest) u hu' gu hgu
              · have hb := hInv.expl_bound (c, i, node) hheadmem u hu' gu hgu
                have hco := hcons node.position a hwa
                show gu + heuristic u goal ≤
                  node.g + 1 + heuristic (stepPos node.position a) goal
                omega
          · intro u hu gu hgu a hwall
            rcases List.mem_cons.mp hu with rfl | hu'
            · have hcov := foldl_pushChild_coversA ids env heuristic goal
                (node.position :: ex) node cardinalActions (rest, ni) a
                (action_mem_cardinalActions a) hwall
              have hgu' : gu = node.g := isDist_unique hgu hdistn
              subst hgu'
              rcases hcov with h1 | ⟨e, he, hpos, hle⟩
              · exact Or.inl h1
              · exact Or.inr ⟨e, he, hpos, hle⟩
            · rcases hInv.covered u hu' gu hgu a hwall with h1 | ⟨e, he, hpos, hle⟩
              · exact Or.inl (List.mem_cons_of_mem _ h1)
              · rcases List.mem_cons.mp he with rfl | he'
                · have hpos' : node.position = stepPos u a := hpos
                  exact Or.inl (hpos' ▸ List.mem_cons_self _ _)
                · exact Or.inr ⟨e, foldl_pushChild_mem_monoA ids env heuristic goal _ node
                    _ _ he', hpos, hle⟩
          · rcases hInv.start_cov with h1 | ⟨e, he, hpos, hg0⟩
            · exact Or.inl (List.mem_cons_of_mem _ h1)
            · rcases List.mem_cons.mp he with rfl | he'
              · have hpos' : node.position = start := hpos
                exact Or.inl (hpos' ▸ List.mem_cons_self _ _)
              · exact Or.inr ⟨e, foldl_pushChild_mem_monoA ids env heuristic goal _ node
                  _ _ he', hpos, hg0⟩
          · intro hgoal
            rcases List.mem_cons.mp hgoal with heq | hmem
            · exact hg heq.symm
            · exact hInv.goal_not hmem
          · have : ne = ex.length := hInv.count
            simp [this]
          · exact Nat.not_lt.mp hcap

theorem step_done_shapesA {ids : Nat → Nat} {goal : Position} {env : Env}
    {heuristic : Position → Position → Nat} {max : Nat}
    {s : State} {r : SearchResult} (h : step ids goal env heuristic max s = .done r) :
    (s.frontier = [] ∧ r = (none, ⟨s.nodes_expanded, none, s.frontier_peak⟩)) ∨
    (∃ c i node rest, s.frontier = (c, i, node) :: rest ∧ node.position = goal ∧
      r = (some node.path, ⟨s.nodes_expanded, some node.path.length, s.frontier_peak⟩)) ∨
    (∃ c i node rest, s.frontier = (c, i, node) :: rest ∧ node.position ≠ goal ∧
      memPos s.explored node.position = false ∧ max < s.nodes_expanded + 1 ∧
      r = (none, ⟨s.nodes_expanded + 1, none, s.frontier_peak⟩)) := by
  obtain ⟨f, ex, pk, ne, ni⟩ := s
  cases f with
  | nil =>
    simp only [step, StepRes.done.injEq] at h
    exact Or.inl ⟨rfl, h.symm⟩
  | cons ehead rest =>
    obtain ⟨c, i, node⟩ := ehead
    by_cases hg : node.position = goal
    · simp only [step, if_pos hg, StepRes.done.injEq] at h
      exact Or.inr (Or.inl ⟨c, i, node, rest, rfl, hg, h.symm⟩)
    · simp only [step, if_neg hg] at h
      by_cases hst : memPos ex node.position = true
      · rw [if_pos hst] at h
        exact StepRes.noConfusion h
      · have hstale : memPos ex node.position = false := Bool.eq_false_iff.mpr hst
        rw [if_neg hst] at h
        by_cases hcap : max < ne + 1
        · rw [if_pos hcap] at h
          simp only [StepRes.done.injEq] at h
          exact Or.inr (Or.inr ⟨c, i, node, rest, rfl, hg, hstale, hcap, h.symm⟩)
        · rw [if_neg hcap] at h
          exact StepRes.noConfusion h

theorem step_next_shapesA {ids : Nat → Nat} {goal : Position} {env : Env}
    {heuristic : Position → Position → Nat} {max : Nat} {s s' : State}
    (h : step ids goal env heuristic max s = .next s') :
    ∃ c i node rest, s.frontier = (c, i, node) :: rest ∧
      ((s'.frontier = rest ∧ s'.nodes_expanded = s.nodes_expanded) ∨
       (s'.frontier.length ≤ rest.length + 4 ∧
         s'.nodes_expanded = s.nodes_expanded + 1 ∧ s'.nodes_expanded ≤ max)) := by
  obtain ⟨f, ex, pk, ne, ni⟩ := s
  cases f with
  | nil =>
    simp only [step] at h
    exact StepRes.noConfusion h
  | cons ehead rest =>
    obtain ⟨c, i, node⟩ := ehead
    by_cases hg : node.position = goal
    · simp only [step, if_pos hg] at h
      exact StepRes.noConfusion h
    · simp only [step, if_neg hg] at h
      by_cases hst : memPos ex node.position = true
      · rw [if_pos hst] at h
        simp only [StepRes.next.injEq] at h
        subst h
        exact ⟨c, i, node, rest, rfl, Or.inl ⟨rfl, rfl⟩⟩
      · rw [if_neg hst] at h
        by_cases hcap : max < ne + 1
        · rw [if_pos hcap] at h
          exact StepRes.noConfusion h
        · rw [if_neg hcap] at h
          simp only [StepRes.next.injEq] at h
          subst h
          refine ⟨c, i, node, rest, rfl, Or.inr ⟨?_, rfl, Nat.not_lt.mp hcap⟩⟩
          have := foldl_pushChild_lengthA ids env heuristic goal
            (node.position :: ex) node cardinalActions (rest, ni)
          simpa [cardinalActions_length] using this

theorem loop_successA {ids : Nat → Nat} {start goal : Position} {env : Env}
    {heuristic : Position → Position → Nat} {max : Nat}
    (hcons : Consistent env goal heuristic) (hgoal0 : heuristic goal goal = 0) :
    ∀ {fuel : Nat} {s : State} {p : List Position} {st : Stats},
      Inv start goal env heuristic max s →
      loop ids goal env heuristic max fuel s = some (some p, st) →
      ∃ s2 c i node rest, Inv start goal env heuristic max s2 ∧
        s2.frontier = (c, i, node) :: rest ∧ node.position = goal ∧
        node.wf env start heuristic goal ∧ c = node.g ∧ IsDist env start goal node.g ∧
        p = node.path ∧
        st = ⟨s2.nodes_expanded, some p.length, s2.frontier_peak⟩ := by
  intro fuel
  induction fuel with
  | zero =>
    intro s p st _ h
    simp [loop] at h
  | succ n ih =>
    intro s p st hInv h
    rw [loop] at h
    cases hstep : step ids goal env heuristic max s with
    | done r =>
      rw [hstep] at h
      simp only [Option.some.injEq] at h
      subst h
      rcases step_done_shapesA hstep with ⟨-, hr⟩ | ⟨c, i, node, rest, hf, hg, hr⟩ |
        ⟨c, i, node, rest, -, -, -, -, hr⟩
      · simp at hr
      · simp only [Prod.mk.injEq, Option.some.injEq] at hr
        obtain ⟨hp, hst⟩ := hr
        have hwfc := hInv.wf_frontier (c, i, node) (hf ▸ List.mem_cons_self _ _)
        have hwf : node.wf env start heuristic goal := hwfc.1
        have hreach : Reach env start goal node.g :=
          hg ▸ Node.wf_reachA env start heuristic goal node hwf
        have hfval : node.f = node.g + heuristic node.position goal := Node.wf_f hwf
        have hfg : node.f = node.g := by
          rw [hfval, hg, hgoal0]
          omega
        have hc2 : c = node.f := hwfc.2
        have hcg : c = node.g := by rw [hc2, hfg]
        have hgoalnot : goal ∉ s.explored := hInv.goal_not
        have hdist : IsDist env start goal node.g := by
          refine ⟨hreach, fun m hm => ?_⟩
          have hcm := frontier_min_headA hInv hcons hm (hg ▸ hgoalnot) hf
          rw [hgoal0] at hcm
          omega
        refine ⟨s, c, i, node, rest, hInv, hf, hg, hwf, hcg, hdist, hp, ?_⟩
        rw [hst, hp]
      · simp at hr
    | next s' =>
      rw [hstep] at h
      exact ih (inv_step_nextA hInv hcons hstep) h

theorem loop_noneA {ids : Nat → Nat} {start goal : Position} {env : Env}
    {heuristic : Position → Position → Nat} {max : Nat}
    (hcons : Consistent env goal heuristic) :
    ∀ {fuel : Nat} {s : State} {st : Stats},
      Inv start goal env heuristic max s →
      loop ids goal env heuristic max fuel s = some (none, st) →
      ∃ s2, Inv start goal env heuristic max s2 ∧
        ((s2.frontier = [] ∧ st = ⟨s2.nodes_expanded, none, s2.frontier_peak⟩) ∨
         (∃ c i node rest, s2.frontier = (c, i, node) :: rest ∧ node.position ≠ goal ∧
           memPos s2.explored node.position = false ∧ max < s2.nodes_expanded + 1 ∧
           st = ⟨s2.nodes_expanded + 1, none, s2.frontier_peak⟩)) := by
  intro fuel
  induction fuel with
  | zero =>
    intro s st _ h
    simp [loop] at h
  | succ n ih =>
    intro s st hInv h
    rw [loop] at h
    cases hstep : step ids goal env heuristic max s with
    | done r =>
      rw [hstep] at h
      simp only [Option.some.injEq] at h
      subst h
      rcases step_done_shapesA hstep with ⟨hf, hr⟩ | ⟨c, i, node, rest, hf, hg, hr⟩ |
        ⟨c, i, node, rest, hf, hg, hstale, hcap, hr⟩
      · simp only [Prod.mk.injEq] at hr
        exact ⟨s, hInv, Or.inl ⟨hf, hr.2⟩⟩
      · simp at hr
      · simp only [Prod.mk.injEq] at hr
        exact ⟨s, hInv, Or.inr ⟨c, i, node, rest, hf, hg, hstale, hcap, hr.2⟩⟩
    | next s' =>
      rw [hstep] at h
      exact ih (inv_step_nextA hInv hcons hstep) h

theorem loop_isSomeA {ids : Nat → Nat} {goal : Position} {env : Env}
    {heuristic : Position → Position → Nat} {max : Nat} :
    ∀ (fuel : Nat) (s : State), s.nodes_expanded ≤ max → loopMeasure max s < fuel →
      (loop ids goal env heuristic max fuel s).isSome = true := by
  intro fuel
  induction fuel with
  | zero =>
    intro s _ hm
    exact absurd hm (Nat.not_lt_zero _)
  | succ n ih =>
    intro s hne hm
    rw [loop]
    cases hstep : step ids goal env heuristic max s with
    | done r => rfl
    | next s' =>
      obtain ⟨c, i, node, rest, hf, hsh⟩ := step_next_shapesA hstep
      have hlen : s.frontier.length = rest.length + 1 := by rw [hf]; rfl
      rcases hsh with ⟨hf', hne'⟩ | ⟨hlen', hne', hle'⟩
      · apply ih
        · rw [hne']
          exact hne
        · have : s'.frontier.length = rest.length := by rw [hf']
          unfold loopMeasure at hm ⊢
          omega
      · apply ih
        · exact hle'
        · unfold loopMeasure at hm ⊢
          omega

end astar

/-! ### The Manhattan heuristic is consistent -/

theorem manhattan_consistent (env : Env) (goal : Position) :
    astar.Consistent env goal astar.manhattan_distance := by
  intro p a _
  cases a <;>
    simp only [astar.manhattan_distance, stepPos, MOVE_DELTAS] <;> omega

theorem manhattan_self (goal : Position) : astar.manhattan_distance goal goal = 0 := by
  simp [astar.manhattan_distance]

theorem manhattan_pos {p goal : Position} (h : p ≠ goal) :
    1 ≤ astar.manhattan_distance p goal := by
  by_contra hlt
  apply h
  simp only [astar.manhattan_distance] at hlt
  have h1 : p.1 = goal.1 := by omega
  have h2 : p.2 = goal.2 := by omega
  exact Prod.ext h1 h2

/-! ### List cardinality helpers -/

theorem length_le_of_nodup_subset {α : Type} {l₁ l₂ : List α} (h₁ : l₁.Nodup)
    (h : l₁ ⊆ l₂) : l₁.length ≤ l₂.length :=
  (h₁.subperm h).length_le

theorem length_eq_of_nodup_equiv {α : Type} {l₁ l₂ : List α} (h₁ : l₁.Nodup)
    (h₂ : l₂.Nodup) (h : ∀ x, x ∈ l₁ ↔ x ∈ l₂) : l₁.length = l₂.length :=
  Nat.le_antisymm (length_le_of_nodup_subset h₁ fun x hx => (h x).mp hx)
    (length_le_of_nodup_subset h₂ fun x hx => (h x).mpr hx)

/-! ### Top-level characterizations of the two searches -/

theorem ucs_terminates (ids : Nat → Nat) (start goal : Position) (env : Env)
    (max_expansions : Nat) :
    ∃ r, ucs.uniformcost_search ids start goal env max_expansions = some r := by
  apply Option.isSome_iff_exists.mp
  apply ucs.loop_isSome (ucs.fuelFor max_expansions) (ucs.init ids start) (Nat.zero_le _)
  simp only [ucs.loopMeasure, ucs.init, ucs.fuelFor, heapPush]
  simp
  omega

theorem astar_terminates (ids : Nat → Nat) (start goal : Position) (env : Env)
    (heuristic : Position → Position → Nat) (max_expansions : Nat) :
    ∃ r, astar.astar_search ids start goal env heuristic max_expansions = some r := by
  apply Option.isSome_iff_exists.mp
  apply astar.loop_isSomeA (astar.fuelFor max_expansions) (astar.init ids start goal heuristic)
    (Nat.zero_le _)
  simp only [astar.loopMeasure, astar.init, astar.fuelFor, heapPush]
  simp
  omega

/-- What holds when `uniformcost_search` returns a path. -/
theorem ucs_success {ids : Nat → Nat} {start goal : Position} {env : Env} {max : Nat}
    {p : List Position} {st : Stats}
    (h : ucs.uniformcost_search ids start goal env max = some (some p, st)) :
    ∃ s2 c i node rest, ucs.Inv start goal env max s2 ∧
      s2.frontier = (c, i, node) :: rest ∧ node.position = goal ∧
      node.wf env start ∧ c = node.g ∧ IsDist env start goal node.g ∧
      p = node.path ∧
      st = ⟨s2.nodes_expanded, some p.length, s2.frontier_peak⟩ :=
  ucs.loop_success ucs.inv_init h

/-- What holds when `astar_search` returns a path (consistent heuristic
vanishing at the goal). -/
theorem astar_success {ids : Nat → Nat} {start goal : Position} {env : Env}
    {heuristic : Position → Position → Nat} {max : Nat} {p : List Position} {st : Stats}
    (hcons : astar.Consistent env goal heuristic) (hgoal0 : heuristic goal goal = 0)
    (h : astar.astar_search ids start goal env heuristic max = some (some p, st)) :
    ∃ s2 c i node rest, astar.Inv start goal env heuristic max s2 ∧
      s2.frontier = (c, i, node) :: rest ∧ node.position = goal ∧
      node.wf env start heuristic goal ∧ c = node.g ∧ IsDist env start goal node.g ∧
      p = node.path ∧
      st = ⟨s2.nodes_expanded, some p.length, s2.frontier_peak⟩ :=
  astar.loop_successA hcons hgoal0 astar.inv_initA h

/-- What holds when `uniformcost_search` returns no path. -/
theorem ucs_none {ids : Nat → Nat} {start goal : Position} {env : Env} {max : Nat}
    {st : Stats}
    (h : ucs.uniformcost_search ids start goal env max = some (none, st)) :
    ∃ s2, ucs.Inv start goal env max s2 ∧
      ((s2.frontier = [] ∧ st = ⟨s2.nodes_expanded, none, s2.frontier_peak⟩) ∨
       (∃ c i node rest, s2.frontier = (c, i, node) :: rest ∧ node.position ≠ goal ∧
         ucs.staleCheck s2.explored node = false ∧ max < s2.nodes_expanded + 1 ∧
         st = ⟨s2.nodes_expanded + 1, none, s2.frontier_peak⟩)) :=
  ucs.loop_none ucs.inv_init h

/-- What holds when `astar_search` returns no path. -/
theorem astar_none {ids : Nat → Nat} {start goal : Position} {env : Env}
    {heuristic : Position → Position → Nat} {max : Nat} {st : Stats}
    (hcons : astar.Consistent env goal heuristic)
    (h : astar.astar_search ids start goal env heuristic max = some (none, st)) :
    ∃ s2, astar.Inv start goal env heuristic max s2 ∧
      ((s2.frontier = [] ∧ st = ⟨s2.nodes_expanded, none, s2.frontier_peak⟩) ∨
       (∃ c i node rest, s2.frontier = (c, i, node) :: rest ∧ node.position ≠ goal ∧
         memPos s2.explored node.position = false ∧ max < s2.nodes_expanded + 1 ∧
         st = ⟨s2.nodes_expanded + 1, none, s2.frontier_peak⟩)) :=
  astar.loop_noneA hcons astar.inv_initA h

/-- With an emptied frontier, UCS has finalized exactly the reachable cells. -/
theorem ucs_empty_explores_reachable {start goal : Position} {env : Env} {max : Nat}
    {s2 : ucs.State} (hInv : ucs.Inv start goal env max s2)
    (hempty : s2.frontier = []) :
    ∀ p, Reachable env start p ↔ p ∈ s2.explored.map Prod.fst := by
  intro p
  constructor
  · rintro ⟨m, hm⟩
    by_contra hmem
    have hnone : lookupPos s2.explored p = none := lookupPos_eq_none_iff.mpr hmem
    obtain ⟨c, i, n, rest, hf, -⟩ := ucs.frontier_min hInv hm hnone
    rw [hempty] at hf
    exact List.noConfusion hf
  · intro hmem
    obtain ⟨pr, hpr, rfl⟩ := List.mem_map.mp hmem
    exact ⟨pr.2, (hInv.trace_dist pr hpr).1⟩

/-- With an emptied frontier, A* has finalized exactly the reachable cells. -/
theorem astar_empty_explores_reachable {start goal : Position} {env : Env}
    {heuristic : Position → Position → Nat} {max : Nat} {s2 : astar.State}
    (hInv : astar.Inv start goal env heuristic max s2)
    (hcons : astar.Consistent env goal heuristic)
    (hempty : s2.frontier = []) :
    ∀ p, Reachable env start p ↔ p ∈ s2.explored := by
  intro p
  constructor
  · rintro ⟨m, hm⟩
    by_contra hmem
    obtain ⟨c, i, n, rest, hf, -⟩ := astar.frontier_minA hInv hcons hm hmem
    rw [hempty] at hf
    exact List.noConfusion hf
  · intro hmem
    obtain ⟨gu, hgu⟩ := hInv.expl_dist p hmem
    exact ⟨gu, hgu.1⟩

/-! ### Tie-break ids: order-preserving supplies give identical runs -/

theorem keyLtB_map {ids : Nat → Nat} (hids : ∀ i j : Nat, ids i < ids j ↔ i < j)
    (a b : Nat × Nat) : keyLtB (a.1, ids a.2) (b.1, ids b.2) = keyLtB a b := by
  simp only [keyLtB]
  rw [decide_eq_decide.mpr (hids a.2 b.2)]

theorem heapPush_map {α : Type} {ids : Nat → Nat}
    (hids : ∀ i j : Nat, ids i < ids j ↔ i < j) :
    ∀ (l : List (Nat × Nat × α)) (e : Nat × Nat × α),
      heapPush (l.map (mapEntry ids)) (mapEntry ids e) =
        (heapPush l e).map (mapEntry ids)
  | [], e => rfl
  | x :: xs, e => by
    have hkey : keyLtB ((mapEntry ids e).1, (mapEntry ids e).2.1)
        ((mapEntry ids x).1, (mapEntry ids x).2.1) =
        keyLtB (e.1, e.2.1) (x.1, x.2.1) :=
      keyLtB_map hids (e.1, e.2.1) (x.1, x.2.1)
    simp only [List.map_cons, heapPush_cons, hkey]
    by_cases h : keyLtB (e.1, e.2.1) (x.1, x.2.1) = true
    · rw [if_pos h, if_pos h]
      rfl
    · rw [if_neg h, if_neg h]
      rw [List.map_cons, heapPush_map hids xs e]

namespace ucs

theorem pushChild_map {ids : Nat → Nat} (hids : ∀ i j : Nat, ids i < ids j ↔ i < j)
    (env : Env) (explored : List (Position × Nat)) (node : Node)
    (acc : List (Nat × Nat × Node) × Nat) (act : Action) :
    pushChild ids env explored node (acc.1.map (mapEntry ids), acc.2) act =
      ((pushChild (fun n => n) env explored node acc act).1.map (mapEntry ids),
        (pushChild (fun n => n) env explored node acc act).2) := by
  rw [pushChild_eq, pushChild_eq]
  by_cases hw : env.is_wall (stepPos node.position act).1 (stepPos node.position act).2 = true
  · rw [if_pos hw, if_pos hw]
  · rw [if_neg hw, if_neg hw]
    by_cases hp : shouldPush explored (stepPos node.position act) (node.g + 1) = true
    · rw [if_pos hp, if_pos hp]
      have : (node.g + 1, ids acc.2,
          Node.mk (stepPos node.position act) (some node) (some act) (node.g + 1)) =
          mapEntry ids (node.g + 1, acc.2,
            Node.mk (stepPos node.position act) (some node) (some act) (node.g + 1)) := rfl
      rw [this, heapPush_map hids]
    · rw [if_neg hp, if_neg hp]

theorem foldl_pushChild_map {ids : Nat → Nat} (hids : ∀ i j : Nat, ids i < ids j ↔ i < j)
    (env : Env) (explored : List (Position × Nat)) (node : Node) :
    ∀ (acts : List Action) (acc : List (Nat × Nat × Node) × Nat),
      List.foldl (pushChild ids env explored node) (acc.1.map (mapEntry ids), acc.2) acts =
        ((List.foldl (pushChild (fun n => n) env explored node) acc acts).1.map
            (mapEntry ids),
          (List.foldl (pushChild (fun n => n) env explored node) acc acts).2)
  | [], acc => rfl
  | a :: acts, acc => by
    simp only [List.foldl_cons]
    rw [pushChild_map hids env explored node acc a]
    exact foldl_pushChild_map hids env explored node acts _

theorem step_map {ids : Nat → Nat} (hids : ∀ i j : Nat, ids i < ids j ↔ i < j)
    (goal : Position) (env : Env) (max : Nat) (s : State) :
    step ids goal env max (mapIds ids s) =
      (match step (fun n => n) goal env max s with
        | .done r => .done r
        | .next s' => .next (mapIds ids s')) := by
  obtain ⟨f, ex, pk, ne, ni⟩ := s
  cases f with
  | nil => rfl
  | cons ehead rest =>
    obtain ⟨c, i, node⟩ := ehead
    show step ids goal env max
        ⟨(c, ids i, node) :: rest.map (mapEntry ids), ex, pk, ne, ni⟩ = _
    by_cases hg : node.position = goal
    · simp only [step, if_pos hg]
    · simp only [step, if_neg hg]
      by_cases hst : staleCheck ex node = true
      · rw [if_pos hst, if_pos hst]
        rfl
      · rw [if_neg hst, if_neg hst]
        by_cases hcap : max < ne + 1
        · rw [if_pos hcap, if_pos hcap]
        · rw [if_neg hcap, if_neg hcap]
          have hfold := foldl_pushChild_map hids env ((node.position, node.g) :: ex) node
            cardinalActions (rest, ni)
          show StepRes.next _ = StepRes.next _
          simp only [expandChildren]
          rw [hfold]
          simp [mapIds]

theorem loop_map {ids : Nat → Nat} (hids : ∀ i j : Nat, ids i < ids j ↔ i < j)
    (goal : Position) (env : Env) (max : Nat) :
    ∀ (fuel : Nat) (s : State),
      loop ids goal env max fuel (mapIds ids s) = loop (fun n => n) goal env max fuel s
  | 0, _ => rfl
  | fuel + 1, s => by
    rw [loop, loop, step_map hids]
    cases step (fun n => n) goal env max s with
    | done r => rfl
    | next s' => exact loop_map hids goal env max fuel s'

theorem search_ids_eq {ids : Nat → Nat} (hmono : StrictMono ids)
    (start goal : Position) (env : Env) (max : Nat) :
    uniformcost_search ids start goal env max =
      uniformcost_search (fun n => n) start goal env max := by
  have hids : ∀ i j : Nat, ids i < ids j ↔ i < j := fun i j => hmono.lt_iff_lt
  show loop ids goal env max (fuelFor max) (init ids start) = _
  have hinit : init ids start = mapIds ids (init (fun n => n) start) := by
    simp [init, mapIds, mapEntry, heapPush]
  rw [hinit, loop_map hids]
  rfl

end ucs

namespace astar

theorem pushChild_mapA {ids : Nat → Nat} (hids : ∀ i j : Nat, ids i < ids j ↔ i < j)
    (env : Env) (heuristic : Position → Position → Nat) (goal : Position)
    (explored : List Position) (node : Node)
    (acc : List (Nat × Nat × Node) × Nat) (act : Action) :
    pushChild ids env heuristic goal explored node (acc.1.map (mapEntry ids), acc.2) act =
      ((pushChild (fun n => n) env heuristic goal explored node acc act).1.map
          (mapEntry ids),
        (pushChild (fun n => n) env heuristic goal explored node acc act).2) := by
  rw [pushChild_eqA, pushChild_eqA]
  by_cases hw : env.is_wall (stepPos node.position act).1 (stepPos node.position act).2 = true
  · rw [if_pos hw, if_pos hw]
  · rw [if_neg hw, if_neg hw]
    by_cases hm : memPos explored (stepPos node.position act) = true
    · rw [if_pos hm, if_pos hm]
    · rw [if_neg hm, if_neg hm]
      have : ((Node.mk (stepPos node.position act) (some node) (some act) (node.g + 1)
            (heuristic (stepPos node.position act) goal)).f, ids acc.2,
          Node.mk (stepPos node.position act) (some node) (some act) (node.g + 1)
            (heuristic (stepPos node.position act) goal)) =
          mapEntry ids ((Node.mk (stepPos node.position act) (some node) (some act)
              (node.g + 1) (heuristic (stepPos node.position act) goal)).f, acc.2,
            Node.mk (stepPos node.position act) (some node) (some act) (node.g + 1)
              (heuristic (stepPos node.position act) goal)) := rfl
      rw [this, heapPush_map hids]

theorem foldl_pushChild_mapA {ids : Nat → Nat} (hids : ∀ i j : Nat, ids i < ids j ↔ i < j)
    (env : Env) (heuristic : Position → Position → Nat) (goal : Position)
    (explored : List Position) (node : Node) :
    ∀ (acts : List Action) (acc : List (Nat × Nat × Node) × Nat),
      List.foldl (pushChild ids env heuristic goal explored node)
          (acc.1.map (mapEntry ids), acc.2) acts =
        ((List.foldl (pushChild (fun n => n) env heuristic goal explored node)
              acc acts).1.map (mapEntry ids),
          (List.foldl (pushChild (fun n => n) env heuristic goal explored node)
              acc acts).2)
  | [], acc => rfl
  | a :: acts, acc => by
    simp only [List.foldl_cons]
    rw [pushChild_mapA hids env heuristic goal explored node acc a]
    exact foldl_pushChild_mapA hids env heuristic goal explored node acts _

theorem step_mapA {ids : Nat → Nat} (hids : ∀ i j : Nat, ids i < ids j ↔ i < j)
    (goal : Position) (env : Env) (heuristic : Position → Position → Nat) (max : Nat)
    (s : State) :
    step ids goal env heuristic max (mapIds ids s) =
      (match step (fun n => n) goal env heuristic max s with
        | .done r => .done r
        | .next s' => .next (mapIds ids s')) := by
  obtain ⟨f, ex, pk, ne, ni⟩ := s
  cases f with
  | nil => rfl
  | cons ehead rest =>
    obtain ⟨c, i, node⟩ := ehead
    show step ids goal env heuristic max
        ⟨(c, ids i, node) :: rest.map (mapEntry ids), ex, pk, ne, ni⟩ = _
    by_cases hg : node.position = goal
    · simp only [step, if_pos hg]
    · simp only [step, if_neg hg]
      by_cases hst : memPos ex node.position = true
      · rw [if_pos hst, if_pos hst]
        rfl
      · rw [if_neg hst, if_neg hst]
        by_cases hcap : max < ne + 1
        · rw [if_pos hcap, if_pos hcap]
        · rw [if_neg hcap, if_neg hcap]
          have hfold := foldl_pushChild_mapA hids env heuristic goal
            (node.position :: ex) node cardinalActions (rest, ni)
          show StepRes.next _ = StepRes.next _
          simp only [expandChildren]
          rw [hfold]
          simp [mapIds]

theorem loop_mapA {ids : Nat → Nat} (hids : ∀ i j : Nat, ids i < ids j ↔ i < j)
    (goal : Position) (env : Env) (heuristic : Position → Position → Nat) (max : Nat) :
    ∀ (fuel : Nat) (s : State),
      loop ids goal env heuristic max fuel (mapIds ids s) =
        loop (fun n => n) goal env heuristic max fuel s
  | 0, _ => rfl
  | fuel + 1, s => by
    rw [loop, loop, step_mapA hids]
    cases step (fun n => n) goal env heuristic max s with
    | done r => rfl
    | next s' => exact loop_mapA hids goal env heuristic max fuel s'

theorem search_ids_eqA {ids : Nat → Nat} (hmono : StrictMono ids)
    (start goal : Position) (env : Env) (heuristic : Position → Position → Nat)
    (max : Nat) :
    astar_search ids start goal env heuristic max =
      astar_search (fun n => n) start goal env heuristic max := by
  have hids : ∀ i j : Nat, ids i < ids j ↔ i < j := fun i j => hmono.lt_iff_lt
  show loop ids goal env heuristic max (fuelFor max) (init ids start goal heuristic) = _
  have hinit : init ids start goal heuristic =
      mapIds ids (init (fun n => n) start goal heuristic) := by
    simp [init, mapIds, mapEntry, heapPush]
  rw [hinit, loop_mapA hids]
  rfl

end astar

/-! ### Light lemmas used by several claims -/

namespace ucs

theorem loop_pop_goal {ids : Nat → Nat} {goal : Position} {env : Env} {max : Nat}
    {s : State} {c i : Nat} {node : Node} {rest : List (Nat × Nat × Node)}
    (hf : s.frontier = (c, i, node) :: rest) (hg : node.position = goal) :
    ∀ {fuel : Nat}, 0 < fuel →
      loop ids goal env max fuel s =
        some (some node.path, ⟨s.nodes_expanded, some node.path.length, s.frontier_peak⟩)
  | 0, h => absurd h (Nat.lt_irrefl 0)
  | fuel + 1, _ => by
    obtain ⟨f, ex, pk, ne, ni⟩ := s
    simp only at hf
    subst hf
    rw [loop]
    simp only [step, if_pos hg]

theorem loop_ne_bound {ids : Nat → Nat} {goal : Position} {env : Env} {max : Nat} :
    ∀ {fuel : Nat} {s : State} {r : Option (List Position)} {st : Stats},
      s.nodes_expanded ≤ max →
      loop ids goal env max fuel s = some (r, st) →
      st.nodes_expanded ≤ max + 1 ∧
        (∀ p, r = some p → st.nodes_expanded ≤ max) ∧
        (st.nodes_expanded = max + 1 → r = none ∧ st.path_length = none) := by
  intro fuel
  induction fuel with
  | zero =>
    intro s r st _ h
    simp [loop] at h
  | succ n ih =>
    intro s r st hne h
    rw [loop] at h
    cases hstep : step ids goal env max s with
    | done r' =>
      rw [hstep] at h
      simp only [Option.some.injEq] at h
      subst h
      rcases step_done_shapes hstep with ⟨-, hr⟩ | ⟨c, i, node, rest, -, -, hr⟩ |
        ⟨c, i, node, rest, -, -, -, hcap, hr⟩
      · simp only [Prod.mk.injEq] at hr
        refine ⟨hr.2 ▸ Nat.le_succ_of_le hne, ?_, ?_⟩
        · intro p hp
          exact absurd (hr.1 ▸ hp) (by simp)
        · intro _
          exact ⟨hr.1, by rw [hr.2]⟩
      · simp only [Prod.mk.injEq] at hr
        refine ⟨hr.2 ▸ Nat.le_succ_of_le hne, ?_, ?_⟩
        · intro p _
          rw [hr.2]
          exact hne
        · intro hcontra
          rw [hr.2] at hcontra
          simp only at hcontra
          omega
      · simp only [Prod.mk.injEq] at hr
        refine ⟨by rw [hr.2]; simp; omega, ?_, ?_⟩
        · intro p hp
          exact absurd (hr.1 ▸ hp) (by simp)
        · intro _
          exact ⟨hr.1, by rw [hr.2]⟩
    | next s' =>
      rw [hstep] at h
      obtain ⟨c, i, node, rest, hf, hsh⟩ := step_next_shapes hstep
      rcases hsh with ⟨-, hne'⟩ | ⟨-, -, hle'⟩
      · exact ih (hne' ▸ hne) h
      · exact ih hle' h

end ucs

namespace astar

theorem loop_pop_goalA {ids : Nat → Nat} {goal : Position} {env : Env}
    {heuristic : Position → Position → Nat} {max : Nat}
    {s : State} {c i : Nat} {node : Node} {rest : List (Nat × Nat × Node)}
    (hf : s.frontier = (c, i, node) :: rest) (hg : node.position = goal) :
    ∀ {fuel : Nat}, 0 < fuel →
      loop ids goal env heuristic max fuel s =
        some (some node.path, ⟨s.nodes_expanded, some node.path.length, s.frontier_peak⟩)
  | 0, h => absurd h (Nat.lt_irrefl 0)
  | fuel + 1, _ => by
    obtain ⟨f, ex, pk, ne, ni⟩ := s
    simp only at hf
    subst hf
    rw [loop]
    simp only [step, if_pos hg]

theorem loop_ne_boundA {ids : Nat → Nat} {goal : Position} {env : Env}
    {heuristic : Position → Position → Nat} {max : Nat} :
    ∀ {fuel : Nat} {s : State} {r : Option (List Position)} {st : Stats},
      s.nodes_expanded ≤ max →
      loop ids goal env heuristic max fuel s = some (r, st) →
      st.nodes_expanded ≤ max + 1 ∧
        (∀ p, r = some p → st.nodes_expanded ≤ max) ∧
        (st.nodes_expanded = max + 1 → r = none ∧ st.path_length = none) := by
  intro fuel
  induction fuel with
  | zero =>
    intro s r st _ h
    simp [loop] at h
  | succ n ih =>
    intro s r st hne h
    rw [loop] at h
    cases hstep : step ids goal env heuristic max s with
    | done r' =>
      rw [hstep] at h
      simp only [Option.some.injEq] at h
      subst h
      rcases step_done_shapesA hstep with ⟨-, hr⟩ | ⟨c, i, node, rest, -, -, hr⟩ |
        ⟨c, i, node, rest, -, -, -, hcap, hr⟩
      · simp only [Prod.mk.injEq] at hr
        refine ⟨hr.2 ▸ Nat.le_succ_of_le hne, ?_, ?_⟩
        · intro p hp
          exact absurd (hr.1 ▸ hp) (by simp)
        · intro _
          exact ⟨hr.1, by rw [hr.2]⟩
      · simp only [Prod.mk.injEq] at hr
        refine ⟨hr.2 ▸ Nat.le_succ_of_le hne, ?_, ?_⟩
        · intro p _
          rw [hr.2]
          exact hne
        · intro hcontra
          rw [hr.2] at hcontra
          simp only at hcontra
          omega
      · simp only [Prod.mk.injEq] at hr
        refine ⟨by rw [hr.2]; simp; omega, ?_, ?_⟩
        · intro p hp
          exact absurd (hr.1 ▸ hp) (by simp)
        · intro _
          exact ⟨hr.1, by rw [hr.2]⟩
    | next s' =>
      rw [hstep] at h
      obtain ⟨c, i, node, rest, hf, hsh⟩ := step_next_shapesA hstep
      rcases hsh with ⟨-, hne'⟩ | ⟨-, -, hle'⟩
      · exact ih (hne' ▸ hne) h
      · exact ih hle' h

/-- Frontier well-formedness alone is preserved, for any heuristic
(no consistency needed): used for path validity of A* with a pluggable
heuristic. -/
theorem wf_frontier_step {ids : Nat → Nat} {start goal : Position} {env : Env}
    {heuristic : Position → Position → Nat} {max : Nat} {s s' : State}
    (hwf : ∀ e ∈ s.frontier, (e.2.2).wf env start heuristic goal)
    (h : step ids goal env heuristic max s = .next s') :
    ∀ e ∈ s'.frontier, (e.2.2).wf env start heuristic goal := by
  obtain ⟨f, ex, pk, ne, ni⟩ := s
  cases f with
  | nil =>
    simp only [step] at h
    exact StepRes.noConfusion h
  | cons ehead rest =>
    obtain ⟨c, i, node⟩ := ehead
    have hwfnode := hwf _ (List.mem_cons_self _ _)
    by_cases hg : node.position = goal
    · simp only [step, if_pos hg] at h
      exact StepRes.noConfusion h
    · simp only [step, if_neg hg] at h
      by_cases hst : memPos ex node.position = true
      · rw [if_pos hst] at h
        simp only [StepRes.next.injEq] at h
        subst h
        exact fun e he => hwf e (List.mem_cons_of_mem _ he)
      · rw [if_neg hst] at h
        by_cases hcap : max < ne + 1
        · rw [if_pos hcap] at h
          exact StepRes.noConfusion h
        · rw [if_neg hcap] at h
          simp only [StepRes.next.injEq] at h
          subst h
          intro e he
          rcases foldl_pushChild_mem_invA ids env heuristic goal _ node cardinalActions
            (rest, ni) he with hrest | ⟨a, k, -, rfl, hwa⟩
          · exact hwf e (List.mem_cons_of_mem _ hrest)
          · exact ⟨hwfnode, ⟨a, rfl⟩, hwa, rfl, rfl⟩

/-- A returned A* path comes from a well-formed goal node, for any
heuristic. -/
theorem loop_success_wf {ids : Nat → Nat} {start goal : Position} {env : Env}
    {heuristic : Position → Position → Nat} {max : Nat} :
    ∀ {fuel : Nat} {s : State} {p : List Position} {st : Stats},
      (∀ e ∈ s.frontier, (e.2.2).wf env start heuristic goal) →
      loop ids goal env heuristic max fuel s = some (some p, st) →
      ∃ node : Node, node.wf env start heuristic goal ∧ node.position = goal ∧
        p = node.path := by
  intro fuel
  induction fuel with
  | zero =>
    intro s p st _ h
    simp [loop] at h
  | succ n ih =>
    intro s p st hwf h
    rw [loop] at h
    cases hstep : step ids goal env heuristic max s with
    | done r =>
      rw [hstep] at h
      simp only [Option.some.injEq] at h
      subst h
      rcases step_done_shapesA hstep with ⟨-, hr⟩ | ⟨c, i, node, rest, hf, hg, hr⟩ |
        ⟨c, i, node, rest, -, -, -, -, hr⟩
      · simp at hr
      · simp only [Prod.mk.injEq, Option.some.injEq] at hr
        exact ⟨node, (hwf _ (hf ▸ List.mem_cons_self _ _)), hg, hr.1⟩
      · simp at hr
    | next s' =>
      rw [hstep] at h
      exact ih (wf_frontier_step hwf hstep) h

theorem wf_frontier_init {ids : Nat → Nat} {start goal : Position} {env : Env}
    {heuristic : Position → Position → Nat} :
    ∀ e ∈ (init ids start goal heuristic).frontier,
      (e.2.2).wf env start heuristic goal := by
  intro e he
  have : e = ((Node.mk start none none 0 (heuristic start goal)).f, ids 0,
      Node.mk start none none 0 (heuristic start goal)) := by
    simpa [init, heapPush] using he
  subst this
  exact ⟨rfl, rfl, rfl⟩

end astar


theorem idSwap34_invol (n : Nat) : idSwap34 (idSwap34 n) = n := by
  by_cases h3 : n = 3
  · subst h3
    rfl
  · by_cases h4 : n = 4
    · subst h4
      rfl
    · simp [idSwap34, h3, h4]

theorem idSwap34_injective : Function.Injective idSwap34 := by
  intro a b h
  rw [← idSwap34_invol a, h, idSwap34_invol]

theorem envCell_reach {p : Position} {m : Nat}
    (h : Reach envCell (0, 0) p m) : p = (0, 0) := by
  induction h with
  | refl => rfl
  | step a h hw ih =>
    have : envCell.is_wall _ _ = false := hw
    simp only [envCell, Bool.not_eq_false', decide_eq_true_eq] at this
    exact Prod.ext this.1 this.2

theorem pathOk_length_pos {env : Env} {start goal : Position} {l : List Position}
    (h : pathOk env start goal l = true) : 0 < l.length := by
  cases l with
  | nil => simp [pathOk] at h
  | cons x xs => simp

/-! ### The claims -/

/-- Claim C1: when `uniformcost_search` reaches the goal within the
expansion cap, positions are finalized (recorded into the `explored` map)
in non-decreasing cost order (the `explored` trace is newest-first, so
its reverse is chronological), each position is finalized at most once
and its recorded cost `g` is the true shortest-path cost from `start`
over passable cardinal moves, and the returned path is a shortest path
from `start` to `goal`. -/
theorem claim_C1 (ids : Nat → Nat) (start goal : Position) (env : Env)
    (max_expansions : Nat) (p : List Position) (st : Stats)
    (h : ucs.uniformcost_search ids start goal env max_expansions = some (some p, st)) :
    IsShortestPath env start goal p ∧ IsDist env start goal (p.length - 1) ∧
      ∀ k s', ucs.states ids goal env max_expansions (ucs.init ids start) k = some s' →
        (s'.explored.reverse.Pairwise fun a b => a.2 ≤ b.2) ∧
        (s'.explored.map Prod.fst).Nodup ∧
        ∀ pr ∈ s'.explored, IsDist env start pr.1 pr.2 := by
  obtain ⟨s2, c, i, node, rest, hInv, hf, hg, hwf, hcg, hdist, hp, hstats⟩ := ucs_success h
  have hlen : p.length = node.g + 1 := by
    rw [hp]
    exact ucs.Node.wf_length env start node hwf
  have hpOk : pathOk env start goal p = true := hp ▸ ucs.Node.wf_pathOk hwf hg
  refine ⟨⟨hpOk, ?_⟩, ?_, ?_⟩
  · intro l' hl'
    have hr' := pathOk_reach hl'
    have hmin := hdist.2 _ hr'
    have hl'pos : 0 < l'.length := pathOk_length_pos hl'
    omega
  · have : p.length - 1 = node.g := by omega
    rw [this]
    exact hdist
  · intro k s' hk
    have hInv' := ucs.inv_states k ucs.inv_init hk
    refine ⟨?_, hInv'.trace_nodup, hInv'.trace_dist⟩
    rw [List.pairwise_reverse]
    exact hInv'.trace_mono

/-- Witness for C1 at a concrete successful search on the 2×2 grid. -/
theorem claim_C1_witness :
    IsShortestPath envTwo (0, 0) (0, 1) [(0, 0), (0, 1)] ∧
      IsDist envTwo (0, 0) (0, 1) (([(0, 0), (0, 1)] : List Position).length - 1) ∧
      ∀ k s', ucs.states idSeq (0, 1) envTwo 10 (ucs.init idSeq (0, 0)) k = some s' →
        (s'.explored.reverse.Pairwise fun a b => a.2 ≤ b.2) ∧
        (s'.explored.map Prod.fst).Nodup ∧
        ∀ pr ∈ s'.explored, IsDist envTwo (0, 0) pr.1 pr.2 :=
  claim_C1 idSeq (0, 0) (0, 1) envTwo 10 [(0, 0), (0, 1)] ⟨1, some 2, 2⟩ (by decide)

/-- Claim C2: whenever UCS and A* (default Manhattan heuristic) both find
a path for the same start, goal, environment and expansion cap, the two
paths have equal length. -/
theorem claim_C2 (ids1 ids2 : Nat → Nat) (start goal : Position) (env : Env)
    (max_expansions : Nat) (p1 p2 : List Position) (st1 st2 : Stats)
    (h1 : ucs.uniformcost_search ids1 start goal env max_expansions = some (some p1, st1))
    (h2 : astar.astar_search ids2 start goal env astar.manhattan_distance max_expansions =
      some (some p2, st2)) :
    p1.length = p2.length := by
  obtain ⟨s2u, cu, iu, nu, restu, hInvU, hfu, hgu, hwfu, hcgu, hdistu, hp1, hstu⟩ :=
    ucs_success h1
  obtain ⟨s2a, ca, ia, na, resta, hInvA, hfa, hga, hwfa, hcga, hdista, hp2, hsta⟩ :=
    astar_success (manhattan_consistent env goal) (manhattan_self goal) h2
  have hl1 : p1.length = nu.g + 1 := by
    rw [hp1]
    exact ucs.Node.wf_length env start nu hwfu
  have hl2 : p2.length = na.g + 1 := by
    rw [hp2]
    exact astar.Node.wf_lengthA env start astar.manhattan_distance goal na hwfa
  have := isDist_unique hdistu hdista
  omega

/-- Witness for C2 on the 2×2 grid. -/
theorem claim_C2_witness :
    ([(0, 0), (0, 1), (1, 1)] : List Position).length =
      ([(0, 0), (0, 1), (1, 1)] : List Position).length :=
  claim_C2 idSeq idSeq (0, 0) (1, 1) envTwo 10 _ _ ⟨3, some 3, 2⟩ ⟨3, some 3, 2⟩
    (by decide) (by decide)

/-- Claim C3: every returned path (either search, any heuristic for A*),
with start and goal passable, starts at `start`, ends at `goal`, moves by
single cardinal `MOVE_DELTAS` steps, and contains no impassable position. -/
theorem claim_C3 (ids1 ids2 : Nat → Nat) (start goal : Position) (env : Env)
    (heuristic : Position → Position → Nat) (max_expansions : Nat)
    (hs : env.is_wall start.1 start.2 = false)
    (hgw : env.is_wall goal.1 goal.2 = false) :
    (∀ p st, ucs.uniformcost_search ids1 start goal env max_expansions =
        some (some p, st) → pathObeys env start goal p = true) ∧
    (∀ p st, astar.astar_search ids2 start goal env heuristic max_expansions =
        some (some p, st) → pathObeys env start goal p = true) := by
  constructor
  · intro p st h
    obtain ⟨s2, c, i, node, rest, hInv, hf, hg, hwf, -, -, hp, -⟩ := ucs_success h
    rw [hp]
    exact ucs.Node.wf_pathObeys hwf hg hs
  · intro p st h
    obtain ⟨node, hwf, hg, hp⟩ :=
      astar.loop_success_wf astar.wf_frontier_init h
    rw [hp]
    exact astar.Node.wf_pathObeysA hwf hg hs

/-- Witness for C3 on the 2×2 grid. -/
theorem claim_C3_witness :
    pathObeys envTwo (0, 0) (0, 1) [(0, 0), (0, 1)] = true ∧
      pathObeys envTwo (0, 0) (0, 1) [(0, 0), (0, 1)] = true :=
  ⟨(claim_C3 idSeq idSeq (0, 0) (0, 1) envTwo astar.manhattan_distance 10 (by decide)
      (by decide)).1 [(0, 0), (0, 1)] ⟨1, some 2, 2⟩ (by decide),
    (claim_C3 idSeq idSeq (0, 0) (0, 1) envTwo astar.manhattan_distance 10 (by decide)
      (by decide)).2 [(0, 0), (0, 1)] ⟨1, some 2, 2⟩ (by decide)⟩

/-- Counterexample to claim C4 as stated: the tie-break key of the
source is `id(node)`, not a monotonically-assigned sequence number, and
two calls with identical start, goal, environment and expansion cap can
return different paths when the (injective, hence legitimate) id
assignments of the two calls order the equal-priority goal entries
differently.  `idSeq` and `idSwap34` are both injective
(`idSwap34_injective`), yet the returned results differ. -/
theorem claim_C4_counterexample :
    ucs.uniformcost_search idSeq (0, 0) (1, 1) envTwo 10 ≠
      ucs.uniformcost_search idSwap34 (0, 0) (1, 1) envTwo 10 := by
  decide

/-- Claim C4 as amended: the pop order among equal-priority entries is
the order of their id values, so identical results across calls are
guaranteed exactly when the id supply respects creation order; under any
strictly monotonic (never-reused) id assignment — in particular an
insertion counter — both searches return identical paths and identical
statistics for identical inputs. -/
theorem claim_C4_amended (ids1 ids2 : Nat → Nat) (h1 : StrictMono ids1)
    (h2 : StrictMono ids2) (start goal : Position) (env : Env)
    (heuristic : Position → Position → Nat) (max_expansions : Nat) :
    ucs.uniformcost_search ids1 start goal env max_expansions =
      ucs.uniformcost_search ids2 start goal env max_expansions ∧
    astar.astar_search ids1 start goal env heuristic max_expansions =
      astar.astar_search ids2 start goal env heuristic max_expansions := by
  constructor
  · rw [ucs.search_ids_eq h1, ucs.search_ids_eq h2]
  · rw [astar.search_ids_eqA h1, astar.search_ids_eqA h2]

/-- Witness for the amended C4 with two concrete monotone id supplies. -/
theorem claim_C4_amended_witness :
    ucs.uniformcost_search idSeq (0, 0) (1, 1) envTwo 10 =
      ucs.uniformcost_search idDouble (0, 0) (1, 1) envTwo 10 ∧
    astar.astar_search idSeq (0, 0) (1, 1) envTwo astar.manhattan_distance 10 =
      astar.astar_search idDouble (0, 0) (1, 1) envTwo astar.manhattan_distance 10 :=
  claim_C4_amended idSeq idDouble (fun a b h => h) (fun a b h => by
      simp only [idDouble]
      omega)
    (0, 0) (1, 1) envTwo astar.manhattan_distance 10

/-- Counterexample to claim C5 as stated: with `max_expansions = 0` the
cap aborts the run after the first expansion and the returned statistics
report `nodes_expanded = 1`, which exceeds the cap: the code increments
the counter before testing it. -/
theorem claim_C5_counterexample :
    ucs.uniformcost_search idSeq (0, 0) (0, 5) envOpen 0 =
      some (none, ⟨1, none, 1⟩) ∧ ¬(1 ≤ 0) := by
  constructor
  · decide
  · decide

/-- Claim C5 as amended: when the expansion count exceeds
`max_expansions` the loop aborts and the call returns the no-path
result; the reported `nodes_expanded` never exceeds `max_expansions + 1`
(not `max_expansions`), it can reach `max_expansions + 1` only on a
cap abort, in which case the result is the no-path result, and any call
that returns a path reports at most `max_expansions`. -/
theorem claim_C5_amended (ids1 ids2 : Nat → Nat) (start goal : Position) (env : Env)
    (heuristic : Position → Position → Nat) (max_expansions : Nat) :
    (∀ r st, ucs.uniformcost_search ids1 start goal env max_expansions = some (r, st) →
      st.nodes_expanded ≤ max_expansions + 1 ∧
        (∀ p, r = some p → st.nodes_expanded ≤ max_expansions) ∧
        (st.nodes_expanded = max_expansions + 1 → r = none ∧ st.path_length = none)) ∧
    (∀ r st, astar.astar_search ids2 start goal env heuristic max_expansions =
        some (r, st) →
      st.nodes_expanded ≤ max_expansions + 1 ∧
        (∀ p, r = some p → st.nodes_expanded ≤ max_expansions) ∧
        (st.nodes_expanded = max_expansions + 1 → r = none ∧ st.path_length = none)) := by
  constructor
  · intro r st h
    exact ucs.loop_ne_bound (Nat.zero_le _) h
  · intro r st h
    exact astar.loop_ne_boundA (Nat.zero_le _) h

/-- Witness for the amended C5 at the concrete cap-abort run. -/
theorem claim_C5_amended_witness :
    (1 ≤ 0 + 1 ∧ (∀ p, (none : Option (List Position)) = some p → 1 ≤ 0) ∧
      (1 = 0 + 1 → (none : Option (List Position)) = none ∧
        (none : Option Nat) = none)) ∧
    (1 ≤ 0 + 1 ∧ (∀ p, (none : Option (List Position)) = some p → 1 ≤ 0) ∧
      (1 = 0 + 1 → (none : Option (List Position)) = none ∧
        (none : Option Nat) = none)) :=
  ⟨(claim_C5_amended idSeq idSeq (0, 0) (0, 5) envOpen astar.manhattan_distance 0).1
      none ⟨1, none, 1⟩ (by decide),
    (claim_C5_amended idSeq idSeq (0, 0) (0, 5) envOpen astar.manhattan_distance 0).2
      none ⟨1, none, 1⟩ (by decide)⟩

/-- Claim C6: when both searches complete without hitting the expansion
cap (their reported expansion counts stay within `max_expansions`), the
expansion count of `astar_search` with the default Manhattan heuristic
is at most that of `uniformcost_search` on the same start, goal and
environment. -/
theorem claim_C6 (ids1 ids2 : Nat → Nat) (start goal : Position) (env : Env)
    (max_expansions : Nat) (r1 r2 : Option (List Position)) (st1 st2 : Stats)
    (h1 : ucs.uniformcost_search ids1 start goal env max_expansions = some (r1, st1))
    (h2 : astar.astar_search ids2 start goal env astar.manhattan_distance max_expansions =
      some (r2, st2))
    (hc1 : st1.nodes_expanded ≤ max_expansions)
    (hc2 : st2.nodes_expanded ≤ max_expansions) :
    st2.nodes_expanded ≤ st1.nodes_expanded := by
  have hcons := manhattan_consistent env goal
  have hgoal0 := manhattan_self goal
  cases r1 with
  | some p1 =>
    obtain ⟨s2u, cu, iu, nu, restu, hInvU, hfu, hgu, hwfu, hcgu, hdistu, hp1, hstu⟩ :=
      ucs_success h1
    cases r2 with
    | some p2 =>
      obtain ⟨s2a, ca, ia, na, resta, hInvA, hfa, hga, hwfa, hcga, hdista, hp2, hsta⟩ :=
        astar_success hcons hgoal0 h2
      have hdd : na.g = nu.g := isDist_unique hdista hdistu
      have hsubset : ∀ u ∈ s2a.explored, u ∈ s2u.explored.map Prod.fst := by
        intro u hu
        obtain ⟨gu, hgud⟩ := hInvA.expl_dist u hu
        have hbound : gu + astar.manhattan_distance u goal ≤ ca :=
          hInvA.expl_bound (ca, ia, na) (hfa ▸ List.mem_cons_self _ _) u hu gu hgud
        have hca : ca = na.g := hcga
        have hune : u ≠ goal := fun heq => hInvA.goal_not (heq ▸ hu)
        have hposu := manhattan_pos hune
        by_contra hmem
        have hnone : lookupPos s2u.explored u = none := lookupPos_eq_none_iff.mpr hmem
        have hmin := ucs.frontier_min_head hInvU hgud.1 hnone hfu
        have hcgu' : cu = nu.g := hcgu
        omega
      have h2count : st2.nodes_expanded = s2a.explored.length := by
        rw [hsta]
        exact hInvA.count
      have h1count : st1.nodes_expanded = s2u.explored.length := by
        rw [hstu]
        exact hInvU.count
      rw [h1count, h2count]
      calc s2a.explored.length ≤ (s2u.explored.map Prod.fst).length :=
            length_le_of_nodup_subset hInvA.expl_nodup hsubset
        _ = s2u.explored.length := List.length_map _ _
    | none =>
      exfalso
      obtain ⟨s2a, hInvA, hcase⟩ := astar_none hcons h2
      rcases hcase with ⟨hempty, hsta⟩ | ⟨c, i, node, rest, -, -, -, hcap, hsta⟩
      · have hreach : Reachable env start goal := ⟨nu.g, hdistu.1⟩
        exact hInvA.goal_not
          ((astar_empty_explores_reachable hInvA hcons hempty goal).mp hreach)
      · rw [hsta] at hc2
        simp only at hc2
        omega
  | none =>
    obtain ⟨s2u, hInvU, hcase⟩ := ucs_none h1
    rcases hcase with ⟨hemptyU, hstu⟩ | ⟨c, i, node, rest, -, -, -, hcap, hstu⟩
    · cases r2 with
      | some p2 =>
        exfalso
        obtain ⟨s2a, ca, ia, na, resta, hInvA, hfa, hga, hwfa, hcga, hdista, hp2, hsta⟩ :=
          astar_success hcons hgoal0 h2
        have hreach : Reachable env start goal := ⟨na.g, hdista.1⟩
        have hmem := (ucs_empty_explores_reachable hInvU hemptyU goal).mp hreach
        exact (lookupPos_eq_none_iff.mp hInvU.goal_not) hmem
      | none =>
        obtain ⟨s2a, hInvA, hcase2⟩ := astar_none hcons h2
        rcases hcase2 with ⟨hemptyA, hsta⟩ | ⟨c, i, node, rest, -, -, -, hcap, hsta⟩
        · have hiff : ∀ p, p ∈ s2a.explored ↔ p ∈ s2u.explored.map Prod.fst := by
            intro p
            rw [← astar_empty_explores_reachable hInvA hcons hemptyA p,
              ← ucs_empty_explores_reachable hInvU hemptyU p]
          have hlen : s2a.explored.length = (s2u.explored.map Prod.fst).length :=
            length_eq_of_nodup_equiv hInvA.expl_nodup hInvU.trace_nodup hiff
          have h2count : st2.nodes_expanded = s2a.explored.length := by
            rw [hsta]
            exact hInvA.count
          have h1count : st1.nodes_expanded = s2u.explored.length := by
            rw [hstu]
            exact hInvU.count
          rw [h1count, h2count, hlen, List.length_map]
        · exfalso
          rw [hsta] at hc2
          simp only at hc2
          omega
    · exfalso
      rw [hstu] at hc1
      simp only at hc1
      omega

/-- Witness for C6 on the 2×2 grid. -/
theorem claim_C6_witness : (3 : Nat) ≤ 3 :=
  claim_C6 idSeq idSeq (0, 0) (1, 1) envTwo 10 (some [(0, 0), (0, 1), (1, 1)])
    (some [(0, 0), (0, 1), (1, 1)]) ⟨3, some 3, 2⟩ ⟨3, some 3, 2⟩
    (by decide) (by decide) (by decide) (by decide)

/-- Claim C7: for an unreachable goal, both searches return the
`(None, path_length None)` not-found result, and the reported expansion
count equals the number of cells reachable from `start` (including
`start`, here given as any duplicate-free enumeration `l` of the
reachable cells), provided that number is within the expansion cap. -/
theorem claim_C7 (ids1 ids2 : Nat → Nat) (start goal : Position) (env : Env)
    (max_expansions : Nat) (l : List Position)
    (hunreach : ¬Reachable env start goal) (hl : l.Nodup)
    (hlR : ∀ p, p ∈ l ↔ Reachable env start p) (hcap : l.length ≤ max_expansions) :
    ∃ st1 st2,
      ucs.uniformcost_search ids1 start goal env max_expansions = some (none, st1) ∧
      st1.path_length = none ∧ st1.nodes_expanded = l.length ∧
      astar.astar_search ids2 start goal env astar.manhattan_distance max_expansions =
        some (none, st2) ∧
      st2.path_length = none ∧ st2.nodes_expanded = l.length := by
  have hcons := manhattan_consistent env goal
  obtain ⟨r1, h1⟩ := ucs_terminates ids1 start goal env max_expansions
  obtain ⟨r2, h2⟩ := astar_terminates ids2 start goal env astar.manhattan_distance
    max_expansions
  obtain ⟨o1, st1⟩ := r1
  obtain ⟨o2, st2⟩ := r2
  cases o1 with
  | some p1 =>
    exfalso
    obtain ⟨s2x, cx, ix, nodex, restx, _, _, _, _, _, hdist, _, _⟩ := ucs_success h1
    exact hunreach ⟨_, hdist.1⟩
  | none =>
    cases o2 with
    | some p2 =>
      exfalso
      obtain ⟨s2x, cx, ix, nodex, restx, _, _, _, _, _, hdist, _, _⟩ :=
        astar_success hcons (manhattan_self goal) h2
      exact hunreach ⟨_, hdist.1⟩
    | none =>
      have hU : st1.path_length = none ∧ st1.nodes_expanded = l.length := by
        obtain ⟨s2u, hInvU, hcase⟩ := ucs_none h1
        rcases hcase with ⟨hempty, hstu⟩ | ⟨c, i, node, rest, hf, -, hstale, hcap2, hstu⟩
        · have hiffU : ∀ p, p ∈ s2u.explored.map Prod.fst ↔ p ∈ l := by
            intro p
            rw [← ucs_empty_explores_reachable hInvU hempty p, hlR]
          have hlenU : (s2u.explored.map Prod.fst).length = l.length :=
            length_eq_of_nodup_equiv hInvU.trace_nodup hl hiffU
          rw [hstu]
          refine ⟨rfl, ?_⟩
          show s2u.nodes_expanded = l.length
          rw [hInvU.count, ← List.length_map s2u.explored Prod.fst, hlenU]
        · exfalso
          have hwfn := (hInvU.wf_frontier (c, i, node)
            (hf ▸ List.mem_cons_self _ _)).1
          have hreach := ucs.Node.wf_reach env start node hwfn
          have hlook : lookupPos s2u.explored node.position = none := by
            rcases ucs.staleCheck_false hstale with h0 | ⟨c', hc', hlt⟩
            · exact h0
            · have hdist := hInvU.trace_dist _ (lookupPos_some_mem hc')
              have := hdist.2 _ hreach
              omega
          have hfresh : node.position ∉ s2u.explored.map Prod.fst :=
            lookupPos_eq_none_iff.mp hlook
          have hsub : (node.position :: s2u.explored.map Prod.fst) ⊆ l := by
            intro x hx
            rcases List.mem_cons.mp hx with rfl | hx'
            · exact (hlR _).mpr ⟨node.g, hreach⟩
            · obtain ⟨pr, hpr, rfl⟩ := List.mem_map.mp hx'
              exact (hlR _).mpr ⟨pr.2, (hInvU.trace_dist pr hpr).1⟩
          have hlen' := length_le_of_nodup_subset
            (List.nodup_cons.mpr ⟨hfresh, hInvU.trace_nodup⟩) hsub
          have hkeys : (s2u.explored.map Prod.fst).length = s2u.nodes_expanded := by
            rw [List.length_map, hInvU.count]
          simp only [List.length_cons] at hlen'
          omega
      have hA : st2.path_length = none ∧ st2.nodes_expanded = l.length := by
        obtain ⟨s2a, hInvA, hcase⟩ := astar_none hcons h2
        rcases hcase with ⟨hempty, hsta⟩ | ⟨c, i, node, rest, hf, -, hstale, hcap2, hsta⟩
        · have hiffA : ∀ p, p ∈ s2a.explored ↔ p ∈ l := by
            intro p
            rw [← astar_empty_explores_reachable hInvA hcons hempty p, hlR]
          have hlenA : s2a.explored.length = l.length :=
            length_eq_of_nodup_equiv hInvA.expl_nodup hl hiffA
          rw [hsta]
          exact ⟨rfl, by rw [hInvA.count, hlenA]⟩
        · exfalso
          have hwfn := (hInvA.wf_frontier (c, i, node)
            (hf ▸ List.mem_cons_self _ _)).1
          have hreach := astar.Node.wf_reachA env start astar.manhattan_distance goal
            node hwfn
          have hfresh : node.position ∉ s2a.explored := fun hmem =>
            (Bool.eq_false_iff.mp hstale) (memPos_iff.mpr hmem)
          have hsub : (node.position :: s2a.explored) ⊆ l := by
            intro x hx
            rcases List.mem_cons.mp hx with rfl | hx'
            · exact (hlR _).mpr ⟨node.g, hreach⟩
            · obtain ⟨gu, hgu⟩ := hInvA.expl_dist x hx'
              exact (hlR _).mpr ⟨gu, hgu.1⟩
          have hlen' := length_le_of_nodup_subset
            (List.nodup_cons.mpr ⟨hfresh, hInvA.expl_nodup⟩) hsub
          have hkeys : s2a.explored.length = s2a.nodes_expanded := hInvA.count.symm
          simp only [List.length_cons] at hlen'
          omega
      exact ⟨st1, st2, h1, hU.1, hU.2, h2, hA.1, hA.2⟩

/-- Witness for C7: a grid where only `(0,0)` is passable, so only the
start is reachable and the searches report one expansion each. -/
theorem claim_C7_witness :
    ∃ st1 st2,
      ucs.uniformcost_search idSeq (0, 0) (5, 5) envCell 10 = some (none, st1) ∧
      st1.path_length = none ∧
      st1.nodes_expanded = ([(0, 0)] : List Position).length ∧
      astar.astar_search idSeq (0, 0) (5, 5) envCell astar.manhattan_distance 10 =
        some (none, st2) ∧
      st2.path_length = none ∧
      st2.nodes_expanded = ([(0, 0)] : List Position).length := by
  apply claim_C7 idSeq idSeq (0, 0) (5, 5) envCell 10 [(0, 0)]
  · rintro ⟨m, hm⟩
    have := envCell_reach hm
    simp at this
  · decide
  · intro p
    constructor
    · intro hp
      have : p = ((0 : Int), (0 : Int)) := by simpa using hp
      subst this
      exact ⟨0, Reach.refl⟩
    · rintro ⟨m, hm⟩
      simp [envCell_reach hm]
  · decide

/-- Claim C8: if `start = goal` (a passable position), both searches
return the single-element path `[start]` with `nodes_expanded = 0` (no
neighbor expansion is performed; the goal test on the popped start node
runs first). -/
theorem claim_C8 (ids1 ids2 : Nat → Nat) (start : Position) (env : Env)
    (heuristic : Position → Position → Nat) (max_expansions : Nat)
    (hpass : env.is_wall start.1 start.2 = false) :
    ucs.uniformcost_search ids1 start start env max_expansions =
      some (some [start], ⟨0, some 1, 1⟩) ∧
    astar.astar_search ids2 start start env heuristic max_expansions =
      some (some [start], ⟨0, some 1, 1⟩) := by
  constructor
  · exact @ucs.loop_pop_goal ids1 start env max_expansions (ucs.init ids1 start) 0
      (ids1 0) (ucs.Node.mk start none none 0) [] rfl rfl
      (ucs.fuelFor max_expansions) (by simp only [ucs.fuelFor]; omega)
  · exact @astar.loop_pop_goalA ids2 start env heuristic max_expansions
      (astar.init ids2 start start heuristic)
      ((astar.Node.mk start none none 0 (heuristic start start)).f) (ids2 0)
      (astar.Node.mk start none none 0 (heuristic start start)) [] rfl rfl
      (astar.fuelFor max_expansions) (by simp only [astar.fuelFor]; omega)

/-- Witness for C8 at a concrete passable start. -/
theorem claim_C8_witness :
    ucs.uniformcost_search idSeq (0, 0) (0, 0) envTwo 10 =
      some (some [(0, 0)], ⟨0, some 1, 1⟩) ∧
    astar.astar_search idSeq (0, 0) (0, 0) envTwo astar.manhattan_distance 10 =
      some (some [(0, 0)], ⟨0, some 1, 1⟩) :=
  claim_C8 idSeq idSeq (0, 0) envTwo astar.manhattan_distance 10 (by decide)

/-- Claim C9: for every input and finite cap, both searches terminate
with a result (the fuel `4 * max_expansions + 6` supplied to the
embedded loop is proved sufficient: each iteration pops one entry, and
pushes only occur on the at most `max_expansions + 1` expansions, four
per expansion, so the loop runs at most `4 * max_expansions + 5`
iterations before returning a path or the not-found result). -/
theorem claim_C9 (ids1 ids2 : Nat → Nat) (start goal : Position) (env : Env)
    (heuristic : Position → Position → Nat) (max_expansions : Nat) :
    (∃ r, ucs.uniformcost_search ids1 start goal env max_expansions = some r) ∧
    (∃ r, astar.astar_search ids2 start goal env heuristic max_expansions = some r) :=
  ⟨ucs_terminates ids1 start goal env max_expansions,
    astar_terminates ids2 start goal env heuristic max_expansions⟩

/-- Claim C10: if `start = goal`, both searches return `[start]` with
`nodes_expanded = 0` even when that position is impassable: the goal
test runs before the explored check and before any `_is_wall` call. -/
theorem claim_C10 (ids1 ids2 : Nat → Nat) (start : Position) (env : Env)
    (heuristic : Position → Position → Nat) (max_expansions : Nat)
    (hwall : env.is_wall start.1 start.2 = true) :
    ucs.uniformcost_search ids1 start start env max_expansions =
      some (some [start], ⟨0, some 1, 1⟩) ∧
    astar.astar_search ids2 start start env heuristic max_expansions =
      some (some [start], ⟨0, some 1, 1⟩) := by
  constructor
  · exact @ucs.loop_pop_goal ids1 start env max_expansions (ucs.init ids1 start) 0
      (ids1 0) (ucs.Node.mk start none none 0) [] rfl rfl
      (ucs.fuelFor max_expansions) (by simp only [ucs.fuelFor]; omega)
  · exact @astar.loop_pop_goalA ids2 start env heuristic max_expansions
      (astar.init ids2 start start heuristic)
      ((astar.Node.mk start none none 0 (heuristic start start)).f) (ids2 0)
      (astar.Node.mk start none none 0 (heuristic start start)) [] rfl rfl
      (astar.fuelFor max_expansions) (by simp only [astar.fuelFor]; omega)

/-- Witness for C10 at a concrete impassable start. -/
theorem claim_C10_witness :
    ucs.uniformcost_search idSeq (3, 3) (3, 3) envCell 10 =
      some (some [(3, 3)], ⟨0, some 1, 1⟩) ∧
    astar.astar_search idSeq (3, 3) (3, 3) envCell astar.manhattan_distance 10 =
      some (some [(3, 3)], ⟨0, some 1, 1⟩) :=
  claim_C10 idSeq idSeq (3, 3) envCell astar.manhattan_distance 10 (by decide)

end Class5
